import Mathlib

/-!
Shallow embedding of the ruffd document-buffer core
(`ruffd-types/src/collections/agg_avl_tree.rs`,
`ruffd-types/src/collections/rope.rs`, `ruffd-types/src/state.rs`,
and the `ServerState` record), together with proofs and refutations of the
specification claims about these components.

Conventions used throughout:
* Rust `usize` indices become `Nat`; the height counter `child_height : i64`
  becomes `Int` (the code computes signed differences with `-1` standing for
  the missing height of a leaf).
* Rust panics (`panic!`, `unreachable!`, out-of-range `Vec::drain`,
  `Option::unwrap` on `None`) are modelled explicitly: functions that can
  panic return `Except Unit _` (or a dedicated result type with a
  `panicked` constructor), `.error ()` marking the panic.
* Cached fields (`elem_count`, `child_height`, `agg`) are recomputed by
  `update_node` at every node construction in the source
  (`ChildNode::new` / `RopeParent::new` always call it), so the caches are,
  by construction, functions of the children; the embedding represents them
  by the corresponding derived functions (`getElemCount`, `getHeight`,
  `getAgg`, `elemCount`).
-/

namespace Ruffd

/-- Model of `std::ops::Bound<usize>`, one endpoint of a `RangeBounds<usize>`. -/
inductive RangeBound where
  | included (n : Nat)
  | excluded (n : Nat)
  | unbounded
  deriving DecidableEq, Repr

/-- Resolution of a start bound, as done by `TreeNode::get_range`,
`RopeNode::delete` and `Vec::drain`: `Included x ↦ x`, `Excluded x ↦ x + 1`,
`Unbounded ↦ 0`. -/
def resolveStart : RangeBound → Nat
  | .included x => x
  | .excluded x => x + 1
  | .unbounded => 0

/-- Resolution of an end bound against a context-dependent default `dflt`
(the element count, or the element count plus one, depending on the call
site in the source): `Included x ↦ x + 1`, `Excluded x ↦ x`,
`Unbounded ↦ dflt`. -/
def resolveEnd (dflt : Nat) : RangeBound → Nat
  | .included x => x + 1
  | .excluded x => x
  | .unbounded => dflt

/-- Elements of `l` whose indices lie in the half-open interval `[s, e)`
(saturating at the list bounds). -/
def slice (s e : Nat) (l : List α) : List α :=
  (l.take e).drop s

/-- Fold of a nonempty list under the combiner `f`, `none` on the empty
list; the reference value of an aggregate range query. -/
def aggList (f : α → α → α) : List α → Option α
  | [] => none
  | x :: xs => some (xs.foldl f x)

/-- Combination of two optional partial aggregates, as in the final `match`
of `TreeNode::get_range`. -/
def optCombine (f : α → α → α) : Option α → Option α → Option α
  | some x, some y => some (f x y)
  | some x, none => some x
  | none, r => r

/-- Model of `AggAvlTreeError`. -/
inductive AggAvlTreeError where
  | indexOutOfBounds
  deriving DecidableEq, Repr

/-! ## `agg_avl_tree.rs`: the order-statistic aggregate tree

`TreeNode<T>` is `Leaf(LeafNode<T>)` or `Child(ChildNode<T>)`; a
`ChildNode` always carries two children (`ChildNode::new` requires both and
every use keeps both populated), so the embedding stores them directly. -/

/-- Model of `TreeNode<T>`: a leaf holding one value, or an internal node
with exactly two children. -/
inductive TreeNode (T : Type) where
  | leaf (val : T)
  | child (left right : TreeNode T)
  deriving DecidableEq, Repr

namespace TreeNode

/-- Model of `TreeNode::get_elem_count` (the cached `elem_count`, maintained
by `update_elem_count` as the sum of the children's counts; a leaf counts 1). -/
def getElemCount : TreeNode T → Nat
  | .leaf _ => 1
  | .child l r => l.getElemCount + r.getElemCount

/-- Model of `TreeNode::get_height`: `None` for a leaf, the cached
`child_height` for an internal node.  `update_height` sets `child_height`
to one more than the largest defined child height, and `0` when both
children are leaves. -/
def getHeight : TreeNode T → Option Int
  | .leaf _ => none
  | .child l r =>
    some (match l.getHeight, r.getHeight with
      | none, none => 0
      | some x, none => x + 1
      | none, some y => y + 1
      | some x, some y => max x y + 1)

/-- Model of `TreeNode::get_agg` for a tree whose aggregates were computed
with combiner `f`: the cached `agg` of a `ChildNode` is maintained by
`calc_agg` as `f` of the children's aggregates (both children are always
present), and a leaf's aggregate is its value. -/
def getAgg (f : T → T → T) : TreeNode T → T
  | .leaf v => v
  | .child l r => f (l.getAgg f) (r.getAgg f)

/-- In-order sequence of the stored values; the abstraction function for
all specifications below. -/
def toList : TreeNode T → List T
  | .leaf v => [v]
  | .child l r => l.toList ++ r.toList

/-- Height of a possibly-leaf subtree as used in `balance`:
`get_height().unwrap_or(-1)`. -/
def hgt (t : TreeNode T) : Int :=
  (t.getHeight).getD (-1)

/-- Model of `TreeNode::balance_ll` (case `left.left` too tall): the
`old_root`s left child becomes the new root, the old root receives its
former `left.right` subtree.  Aggregates and heights are recomputed by
`update_node` in the source and are derived in the model. -/
def balanceLl (l r : TreeNode T) : TreeNode T :=
  match l with
  | .child ll lr => .child ll (.child lr r)
  | .leaf v => .child (.leaf v) r

/-- Model of `TreeNode::balance_lr` (case `left.right` too tall): the
`left.right` grandchild becomes the new root. -/
def balanceLr (l r : TreeNode T) : TreeNode T :=
  match l with
  | .child ll (.child lrl lrr) => .child (.child ll lrl) (.child lrr r)
  | _ => .child l r

/-- Model of `TreeNode::balance_rl` (case `right.left` too tall). -/
def balanceRl (l r : TreeNode T) : TreeNode T :=
  match r with
  | .child (.child rll rlr) rr => .child (.child l rll) (.child rlr rr)
  | _ => .child l r

/-- Model of `TreeNode::balance_rr` (case `right.right` too tall). -/
def balanceRr (l r : TreeNode T) : TreeNode T :=
  match r with
  | .child rl rr => .child (.child l rl) rr
  | .leaf v => .child l (.leaf v)

/-- Model of `TreeNode::balance`.  A leaf is returned unchanged.  For an
internal node the height difference of the children decides: below 2 the
node is kept, otherwise one of the four rotation helpers runs, selected by
the taller child's own child heights (ties fall to the `else` branch:
`balance_lr` on the left, `balance_rr` on the right).  The `unreachable!`
arms of the source (taller child is a leaf, impossible since its height is
at least 1) are modelled as returning the node unchanged; they are also
exercised nowhere in the proofs. -/
def balance : TreeNode T → TreeNode T
  | .leaf v => .leaf v
  | .child l r =>
    if (l.hgt - r.hgt).natAbs < 2 then .child l r
    else if l.hgt > r.hgt then
      match l with
      | .child ll lr =>
        if ll.hgt > lr.hgt then balanceLl (.child ll lr) r
        else balanceLr (.child ll lr) r
      | .leaf v => .child (.leaf v) r
    else
      match r with
      | .child rl rr =>
        if rl.hgt > rr.hgt then balanceRl l (.child rl rr)
        else balanceRr l (.child rl rr)
      | .leaf v => .child l (.leaf v)

/-- Model of `TreeNode::insert`: descend by the left element count
(`idx > left_nelems` goes right with `idx - left_nelems`, otherwise left),
a leaf splits into a two-leaf node with the new value on the side chosen by
`idx == 0`; the rebuilt node is passed to `balance`. -/
def insert : TreeNode T → Nat → T → TreeNode T
  | .leaf x, idx, val =>
    (if idx = 0 then TreeNode.child (.leaf val) (.leaf x)
     else TreeNode.child (.leaf x) (.leaf val)).balance
  | .child l r, idx, val =>
    let leftNelems := l.getElemCount
    (if idx > leftNelems then TreeNode.child l (r.insert (idx - leftNelems) val)
     else TreeNode.child (l.insert idx val) r).balance

/-- Model of `TreeNode::update`: replace the value at in-order index `idx`;
out-of-range indices reach a leaf with `idx ≠ 0` and give
`Err(IndexOutOfBounds)`, leaving the tree unmodified (the source updates
the aggregate caches only on `Ok`). -/
def update : TreeNode T → Nat → T → Except AggAvlTreeError (TreeNode T)
  | .leaf _, idx, val =>
    if idx = 0 then .ok (.leaf val) else .error .indexOutOfBounds
  | .child l r, idx, val => do
    let midIdx := l.getElemCount
    if idx < midIdx then
      let l2 ← l.update idx val
      return .child l2 r
    else
      let r2 ← r.update (idx - midIdx) val
      return .child l r2

/-- Model of `TreeNode::delete`.  The result is `none` when the last value
disappears; a leaf reached with `idx ≠ 0` is the source's
`panic!("attempted out of bounds delete")`, modelled as `.error ()`.
Every rebuilt node (including the promoted sibling) goes through
`balance`. -/
def delete : TreeNode T → Nat → Except Unit (Option (TreeNode T))
  | .leaf _, idx =>
    if idx = 0 then .ok none else .error ()
  | .child l r, idx => do
    let midIdx := l.getElemCount
    if idx < midIdx then
      match ← l.delete idx with
      | some y => return some ((TreeNode.child y r).balance)
      | none => return some (r.balance)
    else
      match ← r.delete (idx - midIdx) with
      | some y => return some ((TreeNode.child l y).balance)
      | none => return some (l.balance)

/-- Recursive worker of `TreeNode::get_range`.  The public entry resolves
the `RangeBounds` argument once (see `getRange`); all recursive calls pass
concrete `start..end` ranges, which resolve to exactly the `(startIdx,
endIdx)` pair threaded here. -/
def getRangeAux (f : T → T → T) : TreeNode T → Nat → Nat → Option T
  | .leaf x, startIdx, endIdx =>
    if startIdx > 0 ∨ endIdx < 1 then none else some x
  | .child l r, startIdx, endIdx =>
    if startIdx = 0 ∧ endIdx ≥ (TreeNode.child l r).getElemCount then
      some ((TreeNode.child l r).getAgg f)
    else
      let midIdx := l.getElemCount
      let lhsEnd := min midIdx endIdx
      let lhsResult :=
        if startIdx < midIdx then getRangeAux f l startIdx lhsEnd else none
      let rhsStart := if startIdx > midIdx then startIdx - midIdx else 0
      let rhsResult :=
        if midIdx < endIdx then getRangeAux f r rhsStart (endIdx - midIdx)
        else none
      optCombine f lhsResult rhsResult

/-- Model of `TreeNode::get_range`: the incoming bounds are resolved with
the unbounded end defaulting to `get_elem_count() + 1`. -/
def getRange (f : T → T → T) (t : TreeNode T) (lo hi : RangeBound) : Option T :=
  getRangeAux f t (resolveStart lo) (resolveEnd (t.getElemCount + 1) hi)

/-- Decidable form of the AVL balance invariant of the specification:
every internal node's child heights differ by less than 2. -/
def isBalanced : TreeNode T → Bool
  | .leaf _ => true
  | .child l r =>
    (l.hgt - r.hgt).natAbs < 2 && l.isBalanced && r.isBalanced

end TreeNode

/-- Model of `AggAvlTree<T>`: an optional root plus the combiner function
(`accumulate`). -/
structure AggAvlTree (T : Type) where
  root : Option (TreeNode T)
  accumulate : T → T → T

namespace AggAvlTree

/-- Model of `AggAvlTree::new`. -/
def new (accumulate : T → T → T) : AggAvlTree T :=
  { root := none, accumulate }

/-- Model of `AggAvlTree::len`. -/
def len (t : AggAvlTree T) : Nat :=
  match t.root with
  | none => 0
  | some x => x.getElemCount

/-- Model of `AggAvlTree::is_empty`. -/
def isEmpty (t : AggAvlTree T) : Bool :=
  t.root.isNone

/-- Model of `AggAvlTree::get_range`. -/
def getRange (t : AggAvlTree T) (lo hi : RangeBound) : Option T :=
  match t.root with
  | some root => root.getRange t.accumulate lo hi
  | none => none

/-- Model of `AggAvlTree::get`: `get_range(idx..=idx)`. -/
def get (t : AggAvlTree T) (idx : Nat) : Option T :=
  t.getRange (.included idx) (.included idx)

/-- Model of `AggAvlTree::insert`: an empty tree receives a fresh leaf,
otherwise `TreeNode::insert` runs (no index is ever rejected). -/
def insert (t : AggAvlTree T) (idx : Nat) (val : T) : AggAvlTree T :=
  match t.root with
  | some root => { t with root := some (root.insert idx val) }
  | none => { t with root := some (.leaf val) }

/-- Model of `AggAvlTree::insert_back`: insert at the current element count
plus one. -/
def insertBack (t : AggAvlTree T) (val : T) : AggAvlTree T :=
  let idx := match t.root with
    | none => 0
    | some x => x.getElemCount
  t.insert (idx + 1) val

/-- Model of `AggAvlTree::insert_front`. -/
def insertFront (t : AggAvlTree T) (val : T) : AggAvlTree T :=
  t.insert 0 val

/-- Model of `AggAvlTree::from_vec`: repeated `insert_back` (the source
marks the balanced bottom-up build as a TODO). -/
def fromVec (elems : List T) (accumulate : T → T → T) : AggAvlTree T :=
  elems.foldl (fun t x => t.insertBack x) (new accumulate)

/-- Model of `AggAvlTree::update`: `Err(IndexOutOfBounds)` on an empty
tree, otherwise `TreeNode::update`; the tree mutates only on `Ok`. -/
def update (t : AggAvlTree T) (idx : Nat) (val : T) :
    AggAvlTree T × Option AggAvlTreeError :=
  match t.root with
  | some x =>
    match x.update idx val with
    | .ok y => ({ t with root := some y }, none)
    | .error e => (t, some e)
  | none => (t, some .indexOutOfBounds)

/-- Model of `AggAvlTree::delete`: the element count is checked first and
`Err(IndexOutOfBounds)` returned without touching the tree; only then does
`TreeNode::delete` run (whose own panic is propagated as `.error`). -/
def delete (t : AggAvlTree T) (idx : Nat) :
    Except Unit (AggAvlTree T × Option AggAvlTreeError) :=
  match t.root with
  | some x =>
    if idx ≥ x.getElemCount then .ok (t, some .indexOutOfBounds)
    else do
      let o ← x.delete idx
      return ({ t with root := o }, none)
  | none => .ok (t, some .indexOutOfBounds)

/-- In-order contents of the tree. -/
def toList (t : AggAvlTree T) : List T :=
  match t.root with
  | none => []
  | some x => x.toList

/-- Balance invariant lifted to the wrapper. -/
def isBalanced (t : AggAvlTree T) : Bool :=
  match t.root with
  | none => true
  | some x => x.isBalanced

end AggAvlTree

end Ruffd

namespace Ruffd

/-- Contents of an optional tree root. -/
def treeOptToList : Option (TreeNode T) → List T
  | none => []
  | some t => t.toList

namespace TreeNode

@[simp] theorem toList_leaf (v : T) : (TreeNode.leaf v).toList = [v] := rfl

@[simp] theorem toList_child (l r : TreeNode T) :
    (TreeNode.child l r).toList = l.toList ++ r.toList := rfl

@[simp] theorem length_toList (t : TreeNode T) :
    t.toList.length = t.getElemCount := by
  induction t with
  | leaf v => rfl
  | child l r hl hr => simp [getElemCount, hl, hr]

theorem toList_ne_nil (t : TreeNode T) : t.toList ≠ [] := by
  induction t with
  | leaf v => simp
  | child l r hl hr => simp [hl]

theorem getElemCount_pos (t : TreeNode T) : 0 < t.getElemCount := by
  induction t with
  | leaf v => simp [getElemCount]
  | child l r hl hr => simp [getElemCount]; omega


end TreeNode

/-! Small list-splitting helpers used to push splices, erasures and updates
through the `++` of `toList`. -/

theorem append_splice_right (L R : List T) (v : T) (idx : Nat)
    (h : L.length ≤ idx) :
    (L ++ R).take idx ++ v :: (L ++ R).drop idx
      = L ++ (R.take (idx - L.length) ++ v :: R.drop (idx - L.length)) := by
  rw [List.take_append_eq_append_take, List.drop_append_eq_append_drop,
    List.take_of_length_le h, List.drop_eq_nil_of_le h]
  simp

theorem append_splice_left (L R : List T) (v : T) (idx : Nat)
    (h : idx ≤ L.length) :
    (L ++ R).take idx ++ v :: (L ++ R).drop idx
      = (L.take idx ++ v :: L.drop idx) ++ R := by
  rw [List.take_append_eq_append_take, List.drop_append_eq_append_drop,
    Nat.sub_eq_zero_of_le h]
  simp

theorem append_erase_left (L R : List T) (idx : Nat) (h : idx < L.length) :
    (L ++ R).take idx ++ (L ++ R).drop (idx + 1)
      = (L.take idx ++ L.drop (idx + 1)) ++ R := by
  rw [List.take_append_eq_append_take, List.drop_append_eq_append_drop,
    Nat.sub_eq_zero_of_le (Nat.le_of_lt h), Nat.sub_eq_zero_of_le h]
  simp

theorem append_erase_right (L R : List T) (idx : Nat) (h : L.length ≤ idx) :
    (L ++ R).take idx ++ (L ++ R).drop (idx + 1)
      = L ++ (R.take (idx - L.length) ++ R.drop (idx - L.length + 1)) := by
  rw [List.take_append_eq_append_take, List.drop_append_eq_append_drop,
    List.take_of_length_le h, List.drop_eq_nil_of_le (by omega)]
  have h2 : idx + 1 - L.length = idx - L.length + 1 := by omega
  rw [h2]
  simp

theorem append_set_left (L R : List T) (v : T) (idx : Nat)
    (h : idx < L.length) :
    (L ++ R).set idx v = L.set idx v ++ R := by
  induction L generalizing idx with
  | nil => simp at h
  | cons a L ih =>
    cases idx with
    | zero => simp
    | succ n =>
      simp only [List.cons_append, List.set_cons_succ]
      rw [ih n (by simpa using h)]

theorem append_set_right (L R : List T) (v : T) (idx : Nat)
    (h : L.length ≤ idx) :
    (L ++ R).set idx v = L ++ R.set (idx - L.length) v := by
  induction L generalizing idx with
  | nil => simp
  | cons a L ih =>
    cases idx with
    | zero => simp at h
    | succ n =>
      simp only [List.cons_append, List.set_cons_succ, List.length_cons]
      rw [ih n (by simpa using h)]
      simp [Nat.succ_sub_succ]

theorem except_ok_bind (a : α) (f : α → Except ε β) :
    (Except.ok a >>= f : Except ε β) = f a := rfl

theorem except_pure (a : α) : (pure a : Except ε α) = Except.ok a := rfl

namespace TreeNode

theorem balanceLl_toList (l r : TreeNode T) :
    (balanceLl l r).toList = l.toList ++ r.toList := by
  cases l <;> simp [balanceLl]

theorem balanceLr_toList (l r : TreeNode T) :
    (balanceLr l r).toList = l.toList ++ r.toList := by
  cases l with
  | leaf v => simp [balanceLr]
  | child ll lr => cases lr <;> simp [balanceLr]

theorem balanceRl_toList (l r : TreeNode T) :
    (balanceRl l r).toList = l.toList ++ r.toList := by
  cases r with
  | leaf v => simp [balanceRl]
  | child rl rr => cases rl <;> simp [balanceRl]

theorem balanceRr_toList (l r : TreeNode T) :
    (balanceRr l r).toList = l.toList ++ r.toList := by
  cases r <;> simp [balanceRr]

/-- Each of the four rotations and the identity cases of `balance` preserve
the in-order contents. -/
theorem balance_toList (t : TreeNode T) : t.balance.toList = t.toList := by
  cases t with
  | leaf v => rfl
  | child l r =>
    cases l <;> cases r <;>
      simp only [balance] <;> split_ifs <;>
        simp [balanceLl_toList, balanceLr_toList, balanceRl_toList,
          balanceRr_toList]

theorem balance_getElemCount (t : TreeNode T) :
    t.balance.getElemCount = t.getElemCount := by
  rw [← length_toList, ← length_toList, balance_toList]

/-- Functional specification of `TreeNode::insert`: the new value is
spliced in at position `idx` (saturating at the back for `idx` beyond the
element count). -/
theorem insert_splice (t : TreeNode T) (idx : Nat) (val : T) :
    (t.insert idx val).toList =
      t.toList.take idx ++ val :: t.toList.drop idx := by
  induction t generalizing idx with
  | leaf x =>
    by_cases h : idx = 0 <;>
      simp [insert, h, balance_toList, List.take_of_length_le,
        List.drop_of_length_le, Nat.one_le_iff_ne_zero]
  | child l r hl hr =>
    by_cases h : idx > l.getElemCount
    · simp only [insert, if_pos h, balance_toList, toList_child, hr]
      rw [append_splice_right l.toList r.toList val idx (by simp; omega)]
      simp
    · simp only [insert, if_neg h, balance_toList, toList_child, hl]
      rw [append_splice_left l.toList r.toList val idx (by simp; omega)]

theorem insert_getElemCount (t : TreeNode T) (idx : Nat) (val : T) :
    (t.insert idx val).getElemCount = t.getElemCount + 1 := by
  rw [← length_toList, insert_splice]
  simp; omega

/-- Functional specification of `TreeNode::update` on an in-range index. -/
theorem update_ok (t : TreeNode T) (idx : Nat) (val : T)
    (h : idx < t.getElemCount) :
    ∃ t2, t.update idx val = .ok t2 ∧ t2.toList = t.toList.set idx val := by
  induction t generalizing idx with
  | leaf x =>
    have hidx : idx = 0 := by simp [getElemCount] at h; omega
    exact ⟨.leaf val, by simp [update, hidx], by simp [hidx]⟩
  | child l r hl hr =>
    simp only [update]
    by_cases hm : idx < l.getElemCount
    · obtain ⟨t2, h1, h2⟩ := hl idx hm
      refine ⟨.child t2 r, ?_, ?_⟩
      · simp [hm, h1, except_ok_bind, except_pure]
      · simp only [toList_child, h2]
        rw [append_set_left l.toList r.toList val idx (by simpa using hm)]
    · have hm2 : idx - l.getElemCount < r.getElemCount := by
        simp [getElemCount] at h; omega
      obtain ⟨t2, h1, h2⟩ := hr _ hm2
      refine ⟨.child l t2, ?_, ?_⟩
      · simp [hm, h1, except_ok_bind, except_pure]
      · simp only [toList_child, h2]
        rw [append_set_right l.toList r.toList val idx (by simp; omega)]
        simp

/-- `TreeNode::update` rejects exactly the out-of-range indices. -/
theorem update_err (t : TreeNode T) (idx : Nat) (val : T)
    (h : t.getElemCount ≤ idx) :
    t.update idx val = .error .indexOutOfBounds := by
  induction t generalizing idx with
  | leaf x =>
    have : idx ≠ 0 := by simp [getElemCount] at h; omega
    simp [update, this]
  | child l r hl hr =>
    have hm : ¬ idx < l.getElemCount := by
      simp [getElemCount] at h
      have := r.getElemCount_pos
      omega
    have h2 : r.getElemCount ≤ idx - l.getElemCount := by
      simp [getElemCount] at h; omega
    simp [update, hm, hr _ h2, except_ok_bind]

/-- Functional specification of `TreeNode::delete` on an in-range index:
no panic occurs and the value at `idx` is removed. -/
theorem delete_ok_opt (t : TreeNode T) (idx : Nat) (h : idx < t.getElemCount) :
    ∃ o, t.delete idx = .ok o ∧
      treeOptToList o = t.toList.take idx ++ t.toList.drop (idx + 1) := by
  induction t generalizing idx with
  | leaf x =>
    have hidx : idx = 0 := by simp [getElemCount] at h; omega
    exact ⟨none, by simp [delete, hidx], by simp [hidx, treeOptToList]⟩
  | child l r hl hr =>
    simp only [delete]
    by_cases hm : idx < l.getElemCount
    · obtain ⟨o, h1, h2⟩ := hl idx hm
      have hsplit : (l.toList ++ r.toList).take idx ++ (l.toList ++ r.toList).drop (idx + 1)
          = treeOptToList o ++ r.toList := by
        rw [append_erase_left l.toList r.toList idx (by simpa using hm), h2]
      cases o with
      | none =>
        refine ⟨some r.balance, ?_, ?_⟩
        · simp [hm, h1, except_ok_bind, except_pure]
        · simp only [treeOptToList, balance_toList, toList_child, hsplit]
          simp [treeOptToList] at h2
          simp [treeOptToList, h2]
      | some y =>
        refine ⟨some (TreeNode.child y r).balance, ?_, ?_⟩
        · simp [hm, h1, except_ok_bind, except_pure]
        · simp only [treeOptToList, balance_toList, toList_child, hsplit]
    · have hm2 : idx - l.getElemCount < r.getElemCount := by
        simp [getElemCount] at h; omega
      obtain ⟨o, h1, h2⟩ := hr _ hm2
      have hsplit : (l.toList ++ r.toList).take idx ++ (l.toList ++ r.toList).drop (idx + 1)
          = l.toList ++ treeOptToList o := by
        rw [append_erase_right l.toList r.toList idx (by simp; omega), h2]
        simp
      cases o with
      | none =>
        refine ⟨some l.balance, ?_, ?_⟩
        · simp [hm, h1, except_ok_bind, except_pure]
        · simp only [treeOptToList, balance_toList, toList_child, hsplit]
          simp [treeOptToList] at h2
          simp [treeOptToList, h2]
      | some y =>
        refine ⟨some (TreeNode.child l y).balance, ?_, ?_⟩
        · simp [hm, h1, except_ok_bind, except_pure]
        · simp only [treeOptToList, balance_toList, toList_child, hsplit]

end TreeNode

end Ruffd

namespace Ruffd

theorem foldl_cons_assoc (f : T → T → T)
    (hf : ∀ a b c, f (f a b) c = f a (f b c)) :
    ∀ (bs : List T) (x b : T), bs.foldl f (f x b) = f x (bs.foldl f b) := by
  intro bs
  induction bs with
  | nil => intro x b; rfl
  | cons c cs ih =>
    intro x b
    simp only [List.foldl_cons]
    rw [hf, ih]

/-- Splitting an aggregate fold over an append mirrors the `optCombine` of
the two partial results; this is where associativity of the combiner
enters. -/
theorem aggList_append (f : T → T → T)
    (hf : ∀ a b c, f (f a b) c = f a (f b c)) (A B : List T) :
    aggList f (A ++ B) = optCombine f (aggList f A) (aggList f B) := by
  cases A with
  | nil => cases B <;> simp [aggList, optCombine]
  | cons a as =>
    cases B with
    | nil => simp [aggList, optCombine]
    | cons b bs =>
      simp only [List.cons_append, aggList, optCombine]
      rw [List.foldl_append]
      simp only [List.foldl_cons]
      rw [foldl_cons_assoc f hf]

/-- The cached aggregate of a subtree is the fold of its contents. -/
theorem aggList_eq_getAgg (f : T → T → T)
    (hf : ∀ a b c, f (f a b) c = f a (f b c)) (t : TreeNode T) :
    aggList f t.toList = some (t.getAgg f) := by
  induction t with
  | leaf v => rfl
  | child l r hl hr =>
    rw [TreeNode.toList_child, aggList_append f hf, hl, hr]
    rfl

theorem slice_append (s e : Nat) (A B : List T) :
    slice s e (A ++ B)
      = slice s (min A.length e) A ++ slice (s - A.length) (e - A.length) B := by
  unfold slice
  rw [List.take_append_eq_append_take, List.drop_append_eq_append_drop]
  congr 1
  · by_cases h : e ≤ A.length
    · rw [Nat.min_eq_right h]
    · rw [Nat.min_eq_left (by omega), List.take_of_length_le (by omega),
        List.take_length]
  · by_cases h : e ≤ A.length
    · have h0 : e - A.length = 0 := by omega
      simp [h0]
    · have h0 : (List.take e A).length = A.length := by simp; omega
      rw [h0]

theorem slice_nil_of_le (l : List T) (s e : Nat) (h : l.length ≤ s) :
    slice s e l = [] := by
  unfold slice
  apply List.drop_eq_nil_of_le
  simp
  omega

theorem slice_end_zero (l : List T) (s : Nat) : slice s 0 l = [] := by
  simp [slice]

theorem slice_full (l : List T) (e : Nat) (h : l.length ≤ e) :
    slice 0 e l = l := by
  simp [slice, List.take_of_length_le h]

namespace TreeNode

/-- Functional specification of `TreeNode::get_range` (resolved indices):
with an associative combiner it returns the fold of exactly the elements
whose in-order indices lie in `[s, e)`, and `none` when that set is empty. -/
theorem getRangeAux_eq (f : T → T → T)
    (hf : ∀ a b c, f (f a b) c = f a (f b c)) (t : TreeNode T) :
    ∀ s e : Nat, getRangeAux f t s e = aggList f (slice s e t.toList) := by
  induction t with
  | leaf v =>
    intro s e
    simp only [getRangeAux]
    split
    next h =>
      rcases h with h | h
      · rw [slice_nil_of_le _ _ _ (by simp; omega)]
        rfl
      · have h0 : e = 0 := by omega
        rw [h0, slice_end_zero]
        rfl
    next h =>
      push_neg at h
      have hs : s = 0 := by omega
      have hfull : slice s e [v] = [v] := by
        rw [hs]
        exact slice_full _ _ (by simp; omega)
      rw [toList_leaf, hfull]
      rfl
  | child l r hl hr =>
    intro s e
    simp only [getRangeAux]
    split
    next h =>
      rw [h.1, slice_full _ _ (by simp [← length_toList] at h ⊢; omega),
        aggList_eq_getAgg f hf]
    next h =>
      rw [toList_child, slice_append, aggList_append f hf]
      congr 1
      · by_cases hm : s < l.getElemCount
        · rw [if_pos hm, hl]
          congr 2
          simp [length_toList]
        · rw [if_neg hm, slice_nil_of_le _ _ _ (by simp; omega)]
          rfl
      · by_cases hm : l.getElemCount < e
        · rw [if_pos hm, hr]
          have h0 : (if s > l.getElemCount then s - l.getElemCount else 0)
              = s - l.toList.length := by
            split <;> simp <;> omega
          rw [h0]
          congr 2
          simp
        · rw [if_neg hm]
          have h0 : e - l.toList.length = 0 := by simp; omega
          rw [h0, slice_end_zero]
          rfl

/-- Point lookups through `get_range(idx..=idx)` agree with list indexing,
for any combiner (no aggregate is ever combined in a singleton query). -/
theorem getRangeAux_single (f : T → T → T) (t : TreeNode T) (idx : Nat) :
    getRangeAux f t idx (idx + 1) = t.toList.get? idx := by
  induction t generalizing idx with
  | leaf v =>
    cases idx <;> simp [getRangeAux]
  | child l r hl hr =>
    have hcount : 2 ≤ (TreeNode.child l r).getElemCount := by
      have h1 := l.getElemCount_pos
      have h2 := r.getElemCount_pos
      simp [getElemCount]
      omega
    simp only [getRangeAux]
    rw [if_neg (by omega)]
    by_cases hm : idx < l.getElemCount
    · rw [if_pos hm, Nat.min_eq_right (by omega), hl, if_neg (by omega)]
      have hi : idx < l.toList.length := by simpa using hm
      rw [toList_child, List.get?_append hi]
      cases h : l.toList.get? idx with
      | none =>
        rw [List.get?_eq_none] at h
        omega
      | some x => rfl
    · rw [if_neg hm, if_pos (by omega)]
      have h0 : (if idx > l.getElemCount then idx - l.getElemCount else 0)
          = idx - l.getElemCount := by
        split <;> omega
      have h1 : idx + 1 - l.getElemCount = (idx - l.getElemCount) + 1 := by
        omega
      rw [h0, h1, hr, toList_child, List.get?_append_right (by simp; omega)]
      simp only [length_toList]
      rfl

end TreeNode

namespace AggAvlTree

@[simp] theorem len_eq_length_toList (t : AggAvlTree T) :
    t.len = t.toList.length := by
  cases h : t.root <;> simp [len, toList, h]

theorem isEmpty_iff (t : AggAvlTree T) :
    t.isEmpty = true ↔ t.toList = [] := by
  cases h : t.root with
  | none => simp [isEmpty, toList, h]
  | some x => simp [isEmpty, toList, h, x.toList_ne_nil]

/-- Model-level specification of `AggAvlTree::get`. -/
theorem get_eq (t : AggAvlTree T) (idx : Nat) :
    t.get idx = t.toList.get? idx := by
  cases h : t.root with
  | none => simp [get, getRange, toList, h]
  | some x =>
    simp only [get, getRange, h, toList, TreeNode.getRange]
    exact TreeNode.getRangeAux_single _ x idx

/-- Model-level specification of `AggAvlTree::get_range` with an
associative combiner. -/
theorem getRange_eq (t : AggAvlTree T)
    (hf : ∀ a b c, t.accumulate (t.accumulate a b) c
      = t.accumulate a (t.accumulate b c)) (lo hi : RangeBound) :
    t.getRange lo hi
      = aggList t.accumulate
          (slice (resolveStart lo) (resolveEnd (t.len + 1) hi) t.toList) := by
  cases h : t.root with
  | none =>
    cases hi <;> cases lo <;>
      simp [getRange, toList, h, slice, aggList]
  | some x =>
    simp only [getRange, h, TreeNode.getRange, toList]
    rw [TreeNode.getRangeAux_eq _ hf]
    have h0 : t.len = x.getElemCount := by simp [len, h]
    rw [h0]

theorem insert_toList (t : AggAvlTree T) (idx : Nat) (val : T) :
    (t.insert idx val).toList
      = t.toList.take idx ++ val :: t.toList.drop idx := by
  cases h : t.root with
  | none => simp [insert, toList, h]
  | some x => simp [insert, toList, h, TreeNode.insert_splice]

@[simp] theorem insert_accumulate (t : AggAvlTree T) (idx : Nat) (val : T) :
    (t.insert idx val).accumulate = t.accumulate := by
  cases h : t.root <;> simp [insert, h]

theorem insert_len (t : AggAvlTree T) (idx : Nat) (val : T) :
    (t.insert idx val).len = t.len + 1 := by
  rw [len_eq_length_toList, len_eq_length_toList, insert_toList]
  simp
  omega

theorem insertBack_toList (t : AggAvlTree T) (val : T) :
    (t.insertBack val).toList = t.toList ++ [val] := by
  rw [insertBack, insert_toList]
  have h : t.toList.length ≤ (match t.root with
      | none => 0
      | some x => x.getElemCount) + 1 := by
    cases h : t.root <;> simp [toList, h]
  rw [List.take_of_length_le h, List.drop_eq_nil_of_le h]

@[simp] theorem insertBack_accumulate (t : AggAvlTree T) (val : T) :
    (t.insertBack val).accumulate = t.accumulate := by
  rw [insertBack, insert_accumulate]

/-- Specification of `AggAvlTree::update` on an in-range index. -/
theorem update_ok_spec (t : AggAvlTree T) (idx : Nat) (val : T)
    (h : idx < t.len) :
    ∃ t2, t.update idx val = (t2, none)
      ∧ t2.toList = t.toList.set idx val
      ∧ t2.accumulate = t.accumulate := by
  cases hr : t.root with
  | none => simp [toList, hr] at h
  | some x =>
    have hx : idx < x.getElemCount := by simpa [len, hr] using h
    obtain ⟨t2, h1, h2⟩ := x.update_ok idx val hx
    exact ⟨{ t with root := some t2 }, by simp [update, hr, h1],
      by simp [toList, hr, h2], rfl⟩

/-- Specification of `AggAvlTree::update` on an out-of-range index: the
error is returned and the tree is untouched. -/
theorem update_err_spec (t : AggAvlTree T) (idx : Nat) (val : T)
    (h : t.len ≤ idx) :
    t.update idx val = (t, some .indexOutOfBounds) := by
  cases hr : t.root with
  | none => simp [update, hr]
  | some x =>
    have hx : x.getElemCount ≤ idx := by simpa [len, hr] using h
    simp [update, hr, x.update_err idx val hx]

/-- Specification of `AggAvlTree::delete` on an in-range index: no panic,
no error, and the element is removed. -/
theorem delete_ok_spec (t : AggAvlTree T) (idx : Nat) (h : idx < t.len) :
    ∃ t2, t.delete idx = .ok (t2, none)
      ∧ t2.toList = t.toList.take idx ++ t.toList.drop (idx + 1)
      ∧ t2.accumulate = t.accumulate := by
  cases hr : t.root with
  | none => simp [toList, hr] at h
  | some x =>
    have hx : idx < x.getElemCount := by simpa [len, hr] using h
    obtain ⟨o, h1, h2⟩ := x.delete_ok_opt idx hx
    refine ⟨{ t with root := o }, ?_, ?_, rfl⟩
    · simp [delete, hr, Nat.not_le.mpr hx, h1, except_ok_bind, except_pure]
    · cases o with
      | none => simpa [toList, hr, treeOptToList] using h2.symm
      | some y => simpa [toList, hr, treeOptToList] using h2

/-- Specification of `AggAvlTree::delete` on an out-of-range index. -/
theorem delete_err_spec (t : AggAvlTree T) (idx : Nat) (h : t.len ≤ idx) :
    t.delete idx = .ok (t, some .indexOutOfBounds) := by
  cases hr : t.root with
  | none => simp [delete, hr]
  | some x =>
    have hx : x.getElemCount ≤ idx := by simpa [len, hr] using h
    simp [delete, hr, hx]

end AggAvlTree

end Ruffd

namespace Ruffd

/-! ## `rope.rs`: the splay rope

`RopeNode<T>` is `Leaf(Vec<T>)` or `Parent(Box<RopeParent<T>>)`; a
`RopeParent` always holds two children (`RopeParent::new` requires both,
and `delete` replaces a parent whose side emptied by the other side), so
the embedding stores them directly.  The cached `elem_count` is recomputed
by `update_node` at every construction and is modelled by the derived
`elemCount`. -/

/-- Model of `RopeError`. -/
inductive RopeError where
  | indexOutOfBounds
  deriving DecidableEq, Repr

/-- Model of `LEAF_SIZE`. -/
def leafSize : Nat := 64

/-- Model of `RopeNode<T>`. -/
inductive RopeNode (T : Type) where
  | leaf (val : List T)
  | parent (left right : RopeNode T)
  deriving DecidableEq, Repr

namespace RopeNode

/-- Model of `RopeNode::elem_count` (cached in `RopeParent`, maintained by
`update_elem_count` as the sum of the children's counts). -/
def elemCount : RopeNode T → Nat
  | .leaf x => x.length
  | .parent l r => l.elemCount + r.elemCount

/-- Size measure for termination of the iterator model. -/
def nodeSize : RopeNode T → Nat
  | .leaf _ => 1
  | .parent l r => l.nodeSize + r.nodeSize + 1

/-- Model of `RopeNode::drain`: the in-order concatenation of the leaf
vectors; the abstraction function for the rope. -/
def drain : RopeNode T → List T
  | .leaf x => x
  | .parent l r => l.drain ++ r.drain

/-- Model of `RopeNode::new`: vectors longer than `LEAF_SIZE` are split at
`len >> 1` (the back half is drained off first, then both halves are built
recursively); anything else becomes a leaf. -/
def new (val : List T) : RopeNode T :=
  if h : val.length > leafSize then
    let midIdx := val.length >>> 1
    .parent (new (val.take midIdx)) (new (val.drop midIdx))
  else
    .leaf val
termination_by val.length
decreasing_by
  · simp only [List.length_take]
    rw [Nat.shiftRight_one]
    simp [leafSize] at h
    omega
  · simp only [List.length_drop]
    rw [Nat.shiftRight_one]
    simp [leafSize] at h
    omega

/-- Model of `RopeNode::from_nodes`: merge into one leaf while the combined
count is below `LEAF_SIZE`, otherwise build a parent. -/
def fromNodes (lhs rhs : RopeNode T) : RopeNode T :=
  if lhs.elemCount + rhs.elemCount < leafSize then
    .leaf (lhs.drain ++ rhs.drain)
  else
    .parent lhs rhs

end RopeNode

/-- Model of `Lr<T>`: a value tagged with the side it occupied in its
parent. -/
inductive Lr (α : Type) where
  | left (a : α)
  | right (a : α)
  deriving DecidableEq, Repr

/-- Model of `L2Val<T>`.  In the source the `parent` field is a
`RopeParent` whose child on the target's side has been `take`n out; the
embedding keeps just the remaining child (`parentOther`), the hole's side
being recorded by the `Lr` tag of `target`.  The target itself is a full
parent node, kept as its pair of children. -/
structure L2Val (T : Type) where
  parentOther : RopeNode T
  target : Lr (RopeNode T × RopeNode T)

/-- Model of `SplayRet<T>`. -/
inductive SplayRet (T : Type) where
  | l1 (left right : RopeNode T)
  | l2 (v : L2Val T)
  | leafVal (v : List T)

namespace RopeNode

/-- Model of `From<RopeNode<T>> for SplayRet<T>`. -/
def toSplayRet : RopeNode T → SplayRet T
  | .parent l r => .l1 l r
  | .leaf x => .leafVal x

/-- Model of `RopeNode::zig_splay`: `parentOther` is the child remaining in
the parent (the hole sat on the target's side). -/
def zigSplay (parentOther : RopeNode T)
    (target : Lr (RopeNode T × RopeNode T)) : RopeNode T :=
  match target with
  | .left t => fromNodes t.1 (fromNodes t.2 parentOther)
  | .right t => fromNodes (fromNodes parentOther t.1) t.2

/-- Model of `RopeNode::splay`: `gOther` is the grandparent's remaining
child, `parent` the parent's remaining child tagged with the parent's side
in the grandparent, `target` the fully populated target node tagged with
its side in the parent.  The four cases rebuild with `from_nodes` exactly
as in the source. -/
def splay (gOther : RopeNode T) (parent : Lr (RopeNode T))
    (target : Lr (RopeNode T × RopeNode T)) : RopeNode T :=
  match parent, target with
  | .left pOther, .left t =>
    fromNodes t.1 (fromNodes t.2 (fromNodes pOther gOther))
  | .left pOther, .right t =>
    fromNodes (fromNodes pOther t.1) (fromNodes t.2 gOther)
  | .right pOther, .left t =>
    fromNodes (fromNodes gOther t.1) (fromNodes t.2 pOther)
  | .right pOther, .right t =>
    fromNodes (fromNodes (fromNodes gOther pOther) t.1) t.2

end RopeNode

/-- Model of `From<SplayRet<T>> for RopeNode<T>` (the `.into()` applied to
the recursion's result): an `L2` value still carrying a hole one level
below the root is resolved by `zig_splay`. -/
def SplayRet.toNode : SplayRet T → RopeNode T
  | .l1 l r => .parent l r
  | .l2 v => RopeNode.zigSplay v.parentOther v.target
  | .leafVal x => .leaf x

namespace RopeNode

/-- Model of `RopeNode::insert`.  At a leaf, `x.drain(idx..)` splits off
the suffix and the value is appended between the halves (for the in-bounds
indices `Rope::insert` guarantees, the saturating `take`/`drop` agree with
`Vec::drain`); the rebuilt vector goes through `Self::new`.  At a parent
the recursion descends by the left element count, and the returned
`SplayRet` is combined exactly as in the source: a full node one level
down becomes an `L2` hole, an `L2` hole two levels down is resolved by
`splay`, and a merged leaf is re-attached with `from_nodes`. -/
def insertAux : RopeNode T → List T → Nat → SplayRet T
  | .leaf x, val, idx =>
    (RopeNode.new (x.take idx ++ val ++ x.drop idx)).toSplayRet
  | .parent l r, val, idx =>
    let midIdx := l.elemCount
    if idx < midIdx then
      match insertAux l val idx with
      | .l1 a b => .l2 ⟨r, .left (a, b)⟩
      | .l2 v => (splay r (.left v.parentOther) v.target).toSplayRet
      | .leafVal x => (fromNodes (RopeNode.new x) r).toSplayRet
    else
      match insertAux r val (idx - midIdx) with
      | .l1 a b => .l2 ⟨l, .right (a, b)⟩
      | .l2 v => (splay l (.right v.parentOther) v.target).toSplayRet
      | .leafVal x => (fromNodes l (RopeNode.new x)).toSplayRet

/-- Final combination `match (lhs, rhs)` of `RopeNode::delete`: an emptied
side is dropped, two surviving sides are rejoined with `from_nodes`. -/
def combineDelete : Option (RopeNode T) → Option (RopeNode T) →
    Option (RopeNode T)
  | none, rhs2 => rhs2
  | lhs2, none => lhs2
  | some a, some b => some (fromNodes a b)

/-- Recursive worker of `RopeNode::delete` on resolved indices.  A leaf
performs `Vec::drain(s..e)`, which panics (modelled `.error ()`) when
`s > e` or `e` exceeds the vector length, and an emptied leaf disappears;
a parent clamps the left recursion's end at `mid`, shifts the right
recursion's window, and combines the survivors with `combineDelete`. -/
def deleteAuxN : RopeNode T → Nat → Nat → Except Unit (Option (RopeNode T))
  | .leaf v, s, e =>
    if s > e ∨ e > v.length then .error ()
    else
      let v2 := v.take s ++ v.drop e
      .ok (if v2.isEmpty then none else some (RopeNode.new v2))
  | .parent l r, s, e => do
    let midIdx := l.elemCount
    let lhs ← if s < midIdx then deleteAuxN l s (min midIdx e)
      else pure (some l)
    let rhs ← if e > midIdx then deleteAuxN r (max s midIdx - midIdx) (e - midIdx)
      else pure (some r)
    pure (combineDelete lhs rhs)

/-- Model of `RopeNode::delete`: the incoming `RangeBounds` are resolved
against the node's element count (`Vec::drain` on a leaf resolves the
unbounded end with the vector length, a parent with its `elem_count`;
these coincide with `elemCount`), and recursive calls pass concrete
`start..end` ranges handled by `deleteAuxN`. -/
def deleteBounds (t : RopeNode T) (lo hi : RangeBound) :
    Except Unit (Option (RopeNode T)) :=
  deleteAuxN t (resolveStart lo) (resolveEnd t.elemCount hi)

end RopeNode

/-- Model of `Rope<T>`. -/
structure Rope (T : Type) where
  root : Option (RopeNode T)
  deriving DecidableEq, Repr

namespace Rope

/-- Model of `Rope::new` / `Rope::default`. -/
def new : Rope T := ⟨none⟩

/-- Model of `Rope::from_document`. -/
def fromDocument (document : List T) : Rope T :=
  ⟨some (RopeNode.new document)⟩

/-- Model of `Rope::len`. -/
def len (r : Rope T) : Nat :=
  match r.root with
  | some x => x.elemCount
  | none => 0

/-- Model of `Rope::is_empty`. -/
def isEmpty (r : Rope T) : Bool :=
  r.root.isNone

/-- Model of `Rope::insert`, returning the rope after the call together
with the `Result`: `idx > len` is rejected up front (`IndexOutOfBounds`,
rope untouched); otherwise an empty rope takes `RopeNode::new(string)` as
root and a populated one runs `RopeNode::insert` followed by the
`SplayRet` conversion. -/
def insert (r : Rope T) (string : List T) (idx : Nat) :
    Rope T × Option RopeError :=
  if idx > r.len then (r, some .indexOutOfBounds)
  else
    match r.root with
    | none => (⟨some (RopeNode.new string)⟩, none)
    | some x => (⟨some (x.insertAux string idx).toNode⟩, none)

/-- Model of `Rope::delete` (a `Vec::drain` panic in a leaf propagates as
`.error ()`). -/
def delete (r : Rope T) (lo hi : RangeBound) : Except Unit (Rope T) :=
  match r.root with
  | none => .ok ⟨none⟩
  | some x => do
    let o ← x.deleteBounds lo hi
    return ⟨o⟩

end Rope

/-- State-machine model of the full-range `RopeIterator` (`iter()`): the
constructor descends the left spine pushing each traversed parent
(equivalently: the right subtree to resume at) and starts on the leftmost
leaf; `next` drains the current leaf, then pops the most recently pushed
node and descends its left spine.  The two together produce exactly this
accumulation. -/
def collectFrom (stack : List (RopeNode T)) (cur : RopeNode T) : List T :=
  match cur with
  | .parent l r => collectFrom (r :: stack) l
  | .leaf v =>
    match stack with
    | [] => v
    | n :: rest => v ++ collectFrom rest n
termination_by (stack.map RopeNode.nodeSize).sum + cur.nodeSize
decreasing_by
  · simp [RopeNode.nodeSize]
    omega
  · simp [RopeNode.nodeSize]
    omega

/-- Model of `rope.iter().collect::<Vec<_>>()`. -/
def Rope.iterCollect (r : Rope T) : List T :=
  match r.root with
  | none => []
  | some x => collectFrom [] x

end Ruffd

namespace Ruffd

/-- Contents of an optional rope root. -/
def optDrain : Option (RopeNode T) → List T
  | none => []
  | some t => t.drain

/-- Abstract contents of a rope. -/
def Rope.toList (r : Rope T) : List T :=
  optDrain r.root

theorem append_splice_list_right (L R V : List T) (idx : Nat)
    (h : L.length ≤ idx) :
    (L ++ R).take idx ++ V ++ (L ++ R).drop idx
      = L ++ (R.take (idx - L.length) ++ V ++ R.drop (idx - L.length)) := by
  rw [List.take_append_eq_append_take, List.drop_append_eq_append_drop,
    List.take_of_length_le h, List.drop_eq_nil_of_le h]
  simp

theorem append_splice_list_left (L R V : List T) (idx : Nat)
    (h : idx ≤ L.length) :
    (L ++ R).take idx ++ V ++ (L ++ R).drop idx
      = (L.take idx ++ V ++ L.drop idx) ++ R := by
  rw [List.take_append_eq_append_take, List.drop_append_eq_append_drop,
    Nat.sub_eq_zero_of_le h]
  simp

namespace RopeNode

@[simp] theorem drain_leaf (v : List T) : (RopeNode.leaf v).drain = v := rfl

@[simp] theorem drain_parent (l r : RopeNode T) :
    (RopeNode.parent l r).drain = l.drain ++ r.drain := rfl

@[simp] theorem length_drain (t : RopeNode T) :
    t.drain.length = t.elemCount := by
  induction t with
  | leaf v => rfl
  | parent l r hl hr => simp [elemCount, hl, hr]

/-- `RopeNode::new` stores exactly its argument. -/
theorem new_drain (v : List T) : (RopeNode.new v).drain = v := by
  induction v using RopeNode.new.induct with
  | case1 v h mid ih1 ih2 =>
    rw [RopeNode.new, dif_pos h]
    simp only [drain_parent]
    rw [ih1, ih2, List.take_append_drop]
  | case2 v h =>
    rw [RopeNode.new, dif_neg h]
    rfl

theorem fromNodes_drain (a b : RopeNode T) :
    (fromNodes a b).drain = a.drain ++ b.drain := by
  unfold fromNodes
  split <;> simp

end RopeNode

/-- Contents represented by a `SplayRet`, matching what `toNode` rebuilds. -/
def SplayRet.listOf : SplayRet T → List T
  | .l1 l r => l.drain ++ r.drain
  | .l2 ⟨p, .left t⟩ => t.1.drain ++ t.2.drain ++ p.drain
  | .l2 ⟨p, .right t⟩ => p.drain ++ t.1.drain ++ t.2.drain
  | .leafVal v => v

@[simp] theorem SplayRet.toSplayRet_listOf (t : RopeNode T) :
    t.toSplayRet.listOf = t.drain := by
  cases t <;> rfl

theorem RopeNode.zigSplay_drain (p : RopeNode T)
    (tgt : Lr (RopeNode T × RopeNode T)) :
    (RopeNode.zigSplay p tgt).drain = SplayRet.listOf (.l2 ⟨p, tgt⟩) := by
  cases tgt <;> simp [RopeNode.zigSplay, RopeNode.fromNodes_drain,
    SplayRet.listOf]

@[simp] theorem SplayRet.toNode_drain (s : SplayRet T) :
    s.toNode.drain = s.listOf := by
  cases s with
  | l1 l r => rfl
  | l2 v =>
    cases v with
    | mk p tgt => exact RopeNode.zigSplay_drain p tgt
  | leafVal v => rfl

theorem RopeNode.splay_drain_left (g p : RopeNode T)
    (tgt : Lr (RopeNode T × RopeNode T)) :
    (RopeNode.splay g (.left p) tgt).drain
      = SplayRet.listOf (.l2 ⟨p, tgt⟩) ++ g.drain := by
  cases tgt <;> simp [RopeNode.splay, RopeNode.fromNodes_drain,
    SplayRet.listOf]

theorem RopeNode.splay_drain_right (g p : RopeNode T)
    (tgt : Lr (RopeNode T × RopeNode T)) :
    (RopeNode.splay g (.right p) tgt).drain
      = g.drain ++ SplayRet.listOf (.l2 ⟨p, tgt⟩) := by
  cases tgt <;> simp [RopeNode.splay, RopeNode.fromNodes_drain,
    SplayRet.listOf]

/-- Functional specification of `RopeNode::insert`: splicing at `idx`,
through all three `SplayRet` shapes. -/
theorem RopeNode.insertAux_listOf (t : RopeNode T) (val : List T)
    (idx : Nat) :
    (t.insertAux val idx).listOf
      = t.drain.take idx ++ val ++ t.drain.drop idx := by
  induction t generalizing idx with
  | leaf x =>
    simp [RopeNode.insertAux, RopeNode.new_drain]
  | parent l r hl hr =>
    simp only [RopeNode.insertAux, drain_parent]
    by_cases hm : idx < l.elemCount
    · rw [if_pos hm,
        append_splice_list_left l.drain r.drain val idx (by simp; omega)]
      cases hres : l.insertAux val idx with
      | l1 a b =>
        have := hl idx
        rw [hres] at this
        simp only [SplayRet.listOf] at this ⊢
        rw [this]
      | l2 v =>
        have := hl idx
        rw [hres] at this
        cases v with
        | mk p tgt =>
          simp only [SplayRet.toSplayRet_listOf, RopeNode.splay_drain_left]
          rw [this]
      | leafVal x =>
        have := hl idx
        rw [hres] at this
        simp only [SplayRet.toSplayRet_listOf, RopeNode.fromNodes_drain,
          RopeNode.new_drain]
        simp only [SplayRet.listOf] at this
        rw [this]
    · rw [if_neg hm,
        append_splice_list_right l.drain r.drain val idx (by simp; omega)]
      cases hres : r.insertAux val (idx - l.elemCount) with
      | l1 a b =>
        have := hr (idx - l.elemCount)
        rw [hres] at this
        simp only [SplayRet.listOf] at this ⊢
        rw [List.append_assoc, this]
        simp
      | l2 v =>
        have := hr (idx - l.elemCount)
        rw [hres] at this
        cases v with
        | mk p tgt =>
          simp only [SplayRet.toSplayRet_listOf, RopeNode.splay_drain_right]
          rw [this]
          simp
      | leafVal x =>
        have := hr (idx - l.elemCount)
        rw [hres] at this
        simp only [SplayRet.toSplayRet_listOf, RopeNode.fromNodes_drain,
          RopeNode.new_drain]
        simp only [SplayRet.listOf] at this
        rw [this]
        simp

namespace Rope

@[simp] theorem len_toList (r : Rope T) :
    r.len = r.toList.length := by
  cases h : r.root <;> simp [len, toList, optDrain, h]

/-- Specification of `Rope::insert` for an in-bounds index: success, and
the contents are spliced at `idx`. -/
theorem insert_ok (r : Rope T) (v : List T) (idx : Nat) (h : idx ≤ r.len) :
    ∃ r2, r.insert v idx = (r2, none)
      ∧ r2.toList = r.toList.take idx ++ v ++ r.toList.drop idx := by
  rw [insert, if_neg (by omega)]
  cases hr : r.root with
  | none =>
    refine ⟨⟨some (RopeNode.new v)⟩, rfl, ?_⟩
    simp [toList, optDrain, hr, RopeNode.new_drain]
  | some x =>
    refine ⟨⟨some (x.insertAux v idx).toNode⟩, rfl, ?_⟩
    simp only [toList, optDrain, hr, SplayRet.toNode_drain]
    exact x.insertAux_listOf v idx

/-- Specification of `Rope::insert` for `idx > len`: the error is returned
before any mutation, so the rope is unchanged. -/
theorem insert_oob (r : Rope T) (v : List T) (idx : Nat) (h : idx > r.len) :
    r.insert v idx = (r, some .indexOutOfBounds) := by
  rw [insert, if_pos h]

end Rope


theorem RopeNode.combineDelete_drain (o1 o2 : Option (RopeNode T)) :
    optDrain (RopeNode.combineDelete o1 o2) = optDrain o1 ++ optDrain o2 := by
  cases o1 <;> cases o2 <;>
    simp [RopeNode.combineDelete, optDrain, RopeNode.fromNodes_drain]

/-- Specification of the `deleteAuxN` worker on a well-formed range
`s ≤ e ≤ elemCount`: no `Vec::drain` panic is reachable and exactly the
elements with indices in `[s, e)` are removed. -/
theorem RopeNode.deleteAuxN_ok (t : RopeNode T) :
    ∀ s e : Nat, s ≤ e → e ≤ t.elemCount →
    ∃ o, t.deleteAuxN s e = .ok o
      ∧ optDrain o = t.drain.take s ++ t.drain.drop e := by
  induction t with
  | leaf v =>
    intro s e hs he
    simp only [elemCount] at he
    rw [RopeNode.deleteAuxN, if_neg (by omega)]
    refine ⟨_, rfl, ?_⟩
    split
    next hemp =>
      simp only [optDrain]
      rw [List.isEmpty_iff] at hemp
      exact hemp.symm
    next hemp => simp [optDrain, RopeNode.new_drain]
  | parent l r hl hr =>
    intro s e hs he
    simp only [elemCount] at he
    simp only [RopeNode.deleteAuxN]
    have hL : l.drain.length = l.elemCount := l.length_drain
    have hR : r.drain.length = r.elemCount := r.length_drain
    by_cases hsm : s < l.elemCount
    · obtain ⟨o1, ho1, hd1⟩ := hl s (min l.elemCount e) (by omega) (by omega)
      by_cases hem : e > l.elemCount
      · obtain ⟨o2, ho2, hd2⟩ :=
          hr (max s l.elemCount - l.elemCount) (e - l.elemCount)
            (by omega) (by omega)
        refine ⟨_, by rw [if_pos hsm, ho1, except_ok_bind, if_pos hem, ho2,
          except_ok_bind]; exact except_pure _, ?_⟩
        rw [RopeNode.combineDelete_drain, hd1, hd2, drain_parent,
          List.take_append_eq_append_take, List.drop_append_eq_append_drop]
        have h1 : min l.elemCount e = l.elemCount := by omega
        have h2 : max s l.elemCount - l.elemCount = 0 := by omega
        have h3 : s - l.drain.length = 0 := by omega
        rw [h1, h2, h3, List.take_zero, ← hL, List.drop_length,
          List.drop_eq_nil_of_le (show l.drain.length ≤ e by omega)]
      · refine ⟨_, by rw [if_pos hsm, ho1, except_ok_bind, if_neg hem,
          except_pure, except_ok_bind]; exact except_pure _, ?_⟩
        rw [RopeNode.combineDelete_drain, hd1, drain_parent,
          List.take_append_eq_append_take, List.drop_append_eq_append_drop]
        have h1 : min l.elemCount e = e := by omega
        have h2 : s - l.drain.length = 0 := by omega
        have h3 : e - l.drain.length = 0 := by omega
        rw [h1, h2, h3, List.take_zero, List.drop_zero]
        simp [optDrain]
    · by_cases hem : e > l.elemCount
      · obtain ⟨o2, ho2, hd2⟩ :=
          hr (max s l.elemCount - l.elemCount) (e - l.elemCount)
            (by omega) (by omega)
        refine ⟨_, by rw [if_neg hsm, except_pure, except_ok_bind,
          if_pos hem, ho2, except_ok_bind]; exact except_pure _, ?_⟩
        rw [RopeNode.combineDelete_drain, hd2, drain_parent,
          List.take_append_eq_append_take, List.drop_append_eq_append_drop]
        have h1 : max s l.elemCount = s := by omega
        rw [h1, List.take_of_length_le (show l.drain.length ≤ s by omega),
          List.drop_eq_nil_of_le (show l.drain.length ≤ e by omega), ← hL]
        simp [optDrain]
      · have hse : s = l.elemCount ∧ e = l.elemCount := by omega
        refine ⟨_, by rw [if_neg hsm, except_pure, except_ok_bind,
          if_neg hem, except_pure, except_ok_bind]; exact except_pure _, ?_⟩
        rw [RopeNode.combineDelete_drain, drain_parent, hse.1, hse.2,
          List.take_append_drop]
        simp [optDrain]

namespace Rope

/-- Specification of `Rope::delete` on a well-formed concrete range
`s..e` with `s ≤ e ≤ len`: no panic, and exactly `[s, e)` is removed. -/
theorem delete_ok (r : Rope T) (s e : Nat) (hs : s ≤ e) (he : e ≤ r.len) :
    ∃ r2, r.delete (.included s) (.excluded e) = .ok r2
      ∧ r2.toList = r.toList.take s ++ r.toList.drop e := by
  cases hr : r.root with
  | none =>
    refine ⟨⟨none⟩, by rw [delete, hr], ?_⟩
    simp [toList, optDrain, hr]
  | some x =>
    have hx : e ≤ x.elemCount := by simpa [len, hr] using he
    obtain ⟨o, ho, hd⟩ := x.deleteAuxN_ok s e hs hx
    refine ⟨⟨o⟩, ?_, ?_⟩
    · simp only [delete, hr]
      have hb : x.deleteBounds (.included s) (.excluded e)
          = x.deleteAuxN s e := rfl
      rw [hb, ho, except_ok_bind]
      exact except_pure _
    · simpa [toList, optDrain, hr] using hd

end Rope

/-- Unfolding of the iterator model: the pending stack is consumed in
order after the current subtree. -/
theorem collectFrom_eq (stack : List (RopeNode T)) (cur : RopeNode T) :
    collectFrom stack cur
      = cur.drain ++ (stack.map RopeNode.drain).join := by
  induction stack, cur using collectFrom.induct with
  | case1 stack l r ih =>
    rw [collectFrom, ih]
    simp
  | case2 v => rw [collectFrom]; simp
  | case3 v n rest ih =>
    rw [collectFrom, ih]
    simp

/-- Collecting the full-range iterator yields exactly the rope contents. -/
theorem Rope.iterCollect_eq_toList (r : Rope T) :
    r.iterCollect = r.toList := by
  cases h : r.root with
  | none => simp [iterCollect, toList, optDrain, h]
  | some x => simp [iterCollect, toList, optDrain, h, collectFrom_eq]

end Ruffd

namespace Ruffd

/-! ## `state.rs`: the document buffer and server state -/

/-- Model of `DocumentError` (`error.rs`), including the `#[from]`
wrappings applied by the `?` operator. -/
inductive DocumentError where
  | indexOutOfBounds
  | rowOutOfBounds
  | colOutOfBounds
  | aggAvlTreeError (e : AggAvlTreeError)
  | ropeError (e : RopeError)
  deriving DecidableEq, Repr

/-- Model of `row_tree_accumulate`. -/
def row_tree_accumulate (a b : Nat) : Nat := a + b

/-- Model of `DocumentBuffer`. -/
structure DocumentBuffer where
  row_tree : AggAvlTree Nat
  text : Rope Char

/-- Model of `Default for DocumentBuffer` / `DocumentBuffer::new`. -/
def DocumentBuffer.new : DocumentBuffer :=
  { row_tree := AggAvlTree.new row_tree_accumulate, text := Rope.new }

/-- Body of the `for_each` closure of `get_line_lengths`, on the state
`(rv, curr, prev_carriage_return)`: a `\n` closes the line including
itself; any character right after a bare `\r` closes the previous line and
opens a new one counting itself; anything else extends the line; and
`prev_carriage_return` becomes whether this character is `\r`. -/
def lineStep (st : List Nat × Nat × Bool) (x : Char) :
    List Nat × Nat × Bool :=
  let (rv, curr, prevCr) := st
  if x = '\n' then (rv ++ [curr + 1], 0, x == '\r')
  else if prevCr then (rv ++ [curr], 1, x == '\r')
  else (rv, curr + 1, x == '\r')

/-- Model of `get_line_lengths`: the fold of `lineStep` over the
characters, with the source's final flush (a pending carriage return
pushes the count and resets it before the last push). -/
def get_line_lengths (chars : List Char) : List Nat :=
  let (rv, curr, prevCr) := chars.foldl lineStep ([], 0, false)
  if prevCr then rv ++ [curr] ++ [0] else rv ++ [curr]

/-- Model of `DocumentBuffer::from_string` (on the string's character
list). -/
def DocumentBuffer.from_string (text : List Char) : DocumentBuffer :=
  let char_vec := text
  let row_counts := get_line_lengths char_vec
  { text := Rope.fromDocument char_vec,
    row_tree := AggAvlTree.fromVec row_counts row_tree_accumulate }

/-- Outcome of a `&mut self` method of `DocumentBuffer`: `Ok(())` with the
new state, `Err(e)` with the state at the early return, or a panic. -/
inductive DocResult where
  | success (b : DocumentBuffer)
  | failure (b : DocumentBuffer) (e : DocumentError)
  | panicked

def DocResult.isSuccess : DocResult → Bool
  | .success _ => true
  | _ => false

/-- Buffer state carried by a non-panicking outcome. -/
def DocResult.bufOut : DocResult → Option DocumentBuffer
  | .success b => some b
  | .failure b _ => some b
  | .panicked => none

/-- Tail of `DocumentBuffer::insert_text` (`state.rs` lines 106-109): the
absolute index is the prefix sum `get_range(..row).unwrap_or(0) + col`
over the already-updated row tree, and the characters are inserted into
the rope (`?` wraps a failure into `DocumentError::RopeError`, with the
row tree already mutated). -/
def insertTextFinish (buf : DocumentBuffer) (rt : AggAvlTree Nat)
    (text : List Char) (row col : Nat) : DocResult :=
  let idx := (rt.getRange .unbounded (.excluded row)).getD 0 + col
  match buf.text.insert text idx with
  | (t2, none) => .success { row_tree := rt, text := t2 }
  | (_, some e) => .failure { row_tree := rt, text := buf.text } (.ropeError e)

/-- Model of `DocumentBuffer::insert_text`.  An empty row tree accepts only
`(0, 0)` and bulk-loads the line lengths (the `unwrap` on the rope insert
is a potential panic); otherwise the row is read (`RowOutOfBounds`), the
column bound checked (`ColOutOfBounds`), and the three cases on the number
of line breaks follow: one entry updates the row twice, two or more update
the row, insert `suffix + last` at `row + 1`, then insert the middle
entries back to front at `row + 1`.  The consumed iterator is modelled by
matching off the first entry and, for the rest, its last entry
(`next_back`) and `dropLast` (the middle, consumed in reverse by the
`while` loop, here a `foldr`). -/
def DocumentBuffer.insert_text (buf : DocumentBuffer) (text : List Char)
    (row_col : Nat × Nat) : DocResult :=
  let (row, col) := row_col
  let char_vec := text
  if buf.row_tree.isEmpty then
    if row ≠ 0 ∨ col ≠ 0 then .failure buf .indexOutOfBounds
    else
      let row_counts := get_line_lengths char_vec
      let rt := row_counts.foldl (fun t v => t.insertBack v) buf.row_tree
      match buf.text.insert char_vec 0 with
      | (t2, none) => .success { row_tree := rt, text := t2 }
      | (_, some _) => .panicked
  else
    match buf.row_tree.get row with
    | none => .failure buf .rowOutOfBounds
    | some curr_row_size =>
      if curr_row_size < col then .failure buf .colOutOfBounds
      else
        let suffix_size := curr_row_size - col
        match get_line_lengths char_vec with
        | [] => .panicked
        | first_count :: rest =>
          match buf.row_tree.update row (col + first_count) with
          | (_, some e) => .failure buf (.aggAvlTreeError e)
          | (rt1, none) =>
            match rest with
            | [] =>
              match rt1.update row (col + first_count + suffix_size) with
              | (_, some e) =>
                .failure { buf with row_tree := rt1 } (.aggAvlTreeError e)
              | (rt2, none) => insertTextFinish buf rt2 text row col
            | r1 :: rs =>
              let last_count := (r1 :: rs).getLast (by simp)
              let rt2 := rt1.insert (row + 1) (suffix_size + last_count)
              let rt3 := (r1 :: rs).dropLast.foldr
                (fun cnt t => t.insert (row + 1) cnt) rt2
              insertTextFinish buf rt3 text row col

/-- Model of the row-deletion loop of `delete_range`
(`for _ in (start_row + 1)..=end_row { self.row_tree.delete(start_row + 1)?; }`,
`count` iterations): the first `Err` aborts with the tree mutated so far,
a `TreeNode::delete` panic propagates. -/
def deleteRowsLoop : AggAvlTree Nat → Nat → Nat →
    Except Unit (AggAvlTree Nat × Option AggAvlTreeError)
  | t, _, 0 => .ok (t, none)
  | t, pos, k + 1 =>
    match t.delete pos with
    | .error e => .error e
    | .ok (t2, some err) => .ok (t2, some err)
    | .ok (t2, none) => deleteRowsLoop t2 pos k

/-- Model of `DocumentBuffer::delete_range`: an empty row tree accepts only
all-zero coordinates; both endpoints are validated against the row tree
(`RowOutOfBounds`, and `ColOutOfBounds` for `col >= row_len`), the
absolute indices computed by prefix sums, the rope range deleted, the rows
`start_row + 1 ..= end_row` deleted one at a time at `start_row + 1`, and
the start row updated to `start_col + (end_row_size - end_col)`. -/
def DocumentBuffer.delete_range (buf : DocumentBuffer)
    (start_row_col end_row_col : Nat × Nat) : DocResult :=
  let (start_row, start_col) := start_row_col
  let (end_row, end_col) := end_row_col
  if buf.row_tree.isEmpty then
    if start_row + start_col + end_row + end_col = 0 then .success buf
    else .failure buf .indexOutOfBounds
  else
    match buf.row_tree.get start_row with
    | none => .failure buf .rowOutOfBounds
    | some start_row_size =>
      if start_row_size ≤ start_col then .failure buf .colOutOfBounds
      else
        let start_idx :=
          (buf.row_tree.getRange .unbounded (.excluded start_row)).getD 0
            + start_col
        match buf.row_tree.get end_row with
        | none => .failure buf .rowOutOfBounds
        | some end_row_size =>
          if end_row_size ≤ end_col then .failure buf .colOutOfBounds
          else
            let end_idx :=
              (buf.row_tree.getRange .unbounded (.excluded end_row)).getD 0
                + end_col
            match buf.text.delete (.included start_idx) (.excluded end_idx)
              with
            | .error _ => .panicked
            | .ok t2 =>
              match deleteRowsLoop buf.row_tree (start_row + 1)
                (end_row - start_row) with
              | .error _ => .panicked
              | .ok (rt1, some e) =>
                .failure { row_tree := rt1, text := t2 } (.aggAvlTreeError e)
              | .ok (rt1, none) =>
                let suffix_len := end_row_size - end_col
                match rt1.update start_row (start_col + suffix_len) with
                | (_, some e) =>
                  .failure { row_tree := rt1, text := t2 }
                    (.aggAvlTreeError e)
                | (rt2, none) => .success { row_tree := rt2, text := t2 }

/-- Representation invariant of a reachable `DocumentBuffer`: its combiner
is `row_tree_accumulate` (the only one any constructor installs), and the
stored line lengths sum to the rope length. -/
def docInv (b : DocumentBuffer) : Prop :=
  b.row_tree.accumulate = row_tree_accumulate
    ∧ b.row_tree.toList.sum = b.text.len

/-! ## `ServerState` (`state.rs` lines 161-166 and 236-242)

The concurrency primitives (`Arc`, `tokio::sync::RwLock`) and the external
payload types (`lsp_types::Url`, `lsp_types::ServerCapabilities`,
`ruff::settings::Settings`, `HashMap`) are modelled opaquely; the claims
about `ServerState` concern only its record structure. -/

/-- Model of `lsp_types::Url` (opaque, compared for equality). -/
def Url : Type := String

/-- Model of `lsp_types::ServerCapabilities` (opaque payload). -/
structure ServerCapabilities where
  payload : Unit

/-- Model of `ruff::settings::Settings` (opaque payload). -/
structure Settings where
  payload : Unit

/-- Model of `tokio::sync::RwLock` wrapped in `Arc`: one independently
lockable cell.  The locking behaviour itself is not modelled; the claims
use only which fields exist and that each sits in its own cell. -/
structure RwLock (α : Type) where
  value : α

/-- Model of `ServerState` exactly as declared in `state.rs`: four fields,
each behind its own `Arc<RwLock<_>>`. -/
structure ServerState where
  project_root : RwLock (Option Url)
  open_buffers : RwLock (List (Url × DocumentBuffer))
  capabilities : RwLock ServerCapabilities
  settings : RwLock Settings

/-- Model of `RwReq<T>`: a read or a write request on a shared cell. -/
inductive RwReq (α : Type) where
  | read (cell : RwLock α)
  | write (cell : RwLock α)

/-- Model of `ServerStateLocks` exactly as declared in `state.rs`: one
optional lock request per `ServerState` field. -/
structure ServerStateLocks where
  project_root : Option (RwReq (Option Url))
  open_buffers : Option (RwReq (List (Url × DocumentBuffer)))
  capabilities : Option (RwReq ServerCapabilities)
  settings : Option (RwReq Settings)

/-- Field names of `ServerState` as declared in the source, in order. -/
def serverStateFieldNames : List String :=
  ["project_root", "open_buffers", "capabilities", "settings"]

end Ruffd

namespace Ruffd

/-! Support lemmas for the document-buffer proofs. -/

theorem sum_take_le_sum (l : List Nat) (n : Nat) :
    (l.take n).sum ≤ l.sum := by
  conv_rhs => rw [← List.take_append_drop n l]
  rw [List.sum_append]
  omega

theorem sum_take_mono (l : List Nat) {n m : Nat} (h : n ≤ m) :
    (l.take n).sum ≤ (l.take m).sum := by
  have h1 : (l.take m).take n = l.take n := by
    rw [List.take_take, Nat.min_eq_left h]
  rw [← h1]
  exact sum_take_le_sum _ _

theorem list_split_at_get (l : List α) (i : Nat) (v : α)
    (h : l.get? i = some v) :
    l = l.take i ++ v :: l.drop (i + 1) := by
  have hi : i < l.length := by
    by_contra hc
    rw [List.get?_eq_none.mpr (by omega)] at h
    exact Option.noConfusion h
  have hd : l.drop i = l.get ⟨i, hi⟩ :: l.drop (i + 1) :=
    List.drop_eq_get_cons hi
  have hv : l.get ⟨i, hi⟩ = v := by
    rw [← Option.some_inj, ← List.get?_eq_get hi, h]
  rw [← hv, ← hd, List.take_append_drop]

theorem sum_take_succ_get (l : List Nat) (i : Nat) (v : Nat)
    (h : l.get? i = some v) :
    (l.take (i + 1)).sum = (l.take i).sum + v := by
  have h2 : l[i]? = some v := by
    rw [← List.get?_eq_getElem?]
    exact h
  rw [List.take_succ, h2]
  simp

theorem take_of_split (A : List α) (v : α) (B : List α) :
    ((A ++ v :: B).take A.length) = A := by
  rw [List.take_append_eq_append_take, List.take_of_length_le (le_refl _),
    Nat.sub_self]
  simp

theorem get_of_split (A : List α) (v : α) (B : List α) :
    ((A ++ v :: B).get? A.length) = some v := by
  rw [List.get?_append_right (le_refl _), Nat.sub_self]
  rfl

theorem drop_of_split (A : List α) (v : α) (B : List α) :
    ((A ++ v :: B).drop (A.length + 1)) = B := by
  rw [List.drop_append_eq_append_drop,
    List.drop_eq_nil_of_le (by omega)]
  have h : A.length + 1 - A.length = 1 := by omega
  simp [h]

/-- Invariant of the `get_line_lengths` fold: each character adds exactly
one to the pushed-plus-pending total. -/
theorem lineStep_fold_sum (chars : List Char) :
    ∀ st : List Nat × Nat × Bool,
    (chars.foldl lineStep st).1.sum + (chars.foldl lineStep st).2.1
      = st.1.sum + st.2.1 + chars.length := by
  induction chars with
  | nil => intro st; simp
  | cons c cs ih =>
    intro st
    obtain ⟨rv, curr, prevCr⟩ := st
    simp only [List.foldl_cons, List.length_cons]
    rw [ih]
    by_cases hc1 : c = '\n' <;> by_cases hc2 : prevCr = true <;>
      simp [lineStep, hc1, hc2] <;> omega

/-- The per-line lengths of a chunk sum to its length. -/
theorem get_line_lengths_sum (chars : List Char) :
    (get_line_lengths chars).sum = chars.length := by
  have h := lineStep_fold_sum chars ([], 0, false)
  unfold get_line_lengths
  rcases hfold : chars.foldl lineStep ([], 0, false) with ⟨rv, curr, prevCr⟩
  rw [hfold] at h
  have h2 : rv.sum + curr = chars.length := by simpa using h
  by_cases hp : prevCr = true <;> simp [hp] <;> omega

theorem get_line_lengths_ne_nil (chars : List Char) :
    get_line_lengths chars ≠ [] := by
  unfold get_line_lengths
  rcases hfold : chars.foldl lineStep ([], 0, false) with ⟨rv, curr, prevCr⟩
  by_cases hp : prevCr = true <;> simp [hp]

namespace AggAvlTree

theorem foldl_add_eq (xs : List Nat) :
    ∀ x : Nat, xs.foldl row_tree_accumulate x = x + xs.sum := by
  induction xs with
  | nil => intro x; simp
  | cons y ys ih =>
    intro x
    simp only [List.foldl_cons, List.sum_cons]
    rw [ih]
    unfold row_tree_accumulate
    omega

theorem aggList_add_getD (xs : List Nat) :
    (aggList row_tree_accumulate xs).getD 0 = xs.sum := by
  cases xs with
  | nil => rfl
  | cons x ys =>
    simp only [aggList, Option.getD_some, List.sum_cons]
    exact foldl_add_eq ys x

/-- The prefix query `get_range(..row).unwrap_or(0)` of the row tree is
the sum of the first `row` stored lengths. -/
theorem getRange_prefix_sum (t : AggAvlTree Nat)
    (hacc : t.accumulate = row_tree_accumulate) (row : Nat) :
    (t.getRange .unbounded (.excluded row)).getD 0
      = (t.toList.take row).sum := by
  rw [getRange_eq t (by rw [hacc]; unfold row_tree_accumulate; omega),
    hacc]
  have h : slice (resolveStart RangeBound.unbounded)
      (resolveEnd (t.len + 1) (.excluded row)) t.toList
      = t.toList.take row := by
    simp [slice, resolveStart, resolveEnd]
  rw [h, aggList_add_getD]

/-- Appending values with repeated `insert_back` extends the contents in
order (and keeps the combiner). -/
theorem foldl_insertBack_toList (xs : List Nat) :
    ∀ t : AggAvlTree Nat,
    ((xs.foldl (fun tr v => tr.insertBack v) t).toList
        = t.toList ++ xs)
      ∧ (xs.foldl (fun tr v => tr.insertBack v) t).accumulate
        = t.accumulate := by
  induction xs with
  | nil => intro t; simp
  | cons x ys ih =>
    intro t
    simp only [List.foldl_cons]
    obtain ⟨h1, h2⟩ := ih (t.insertBack x)
    rw [h1, h2, insertBack_toList, insertBack_accumulate]
    simp

/-- Repeatedly inserting the middle line counts at `row + 1` (back to
front, as the `while let` loop does) splices them after the entry at
`row`. -/
theorem foldr_insert_spec (M : List Nat) (row : Nat) :
    ∀ (t : AggAvlTree Nat) (A : List Nat) (c : Nat) (rest : List Nat),
    A.length = row →
    t.toList = A ++ c :: rest →
    ((M.foldr (fun cnt tr => tr.insert (row + 1) cnt) t).toList
        = A ++ c :: (M ++ rest))
      ∧ (M.foldr (fun cnt tr => tr.insert (row + 1) cnt) t).accumulate
        = t.accumulate := by
  induction M with
  | nil => intro t A c rest hA ht; simpa using ht
  | cons m ms ih =>
    intro t A c rest hA ht
    simp only [List.foldr_cons]
    obtain ⟨h1, h2⟩ := ih t A c rest hA ht
    constructor
    · rw [insert_toList, h1]
      have hsplit : (A ++ c :: (ms ++ rest)).take (row + 1) = A ++ [c] := by
        rw [← hA, show A.length + 1 = (A ++ [c]).length by simp]
        rw [show A ++ c :: (ms ++ rest) = (A ++ [c]) ++ (ms ++ rest) by simp]
        rw [List.take_append_eq_append_take, List.take_of_length_le (le_refl _),
          Nat.sub_self]
        simp
      have hdrop : (A ++ c :: (ms ++ rest)).drop (row + 1) = ms ++ rest := by
        rw [← hA]
        have := drop_of_split A c (ms ++ rest)
        exact this
      rw [hsplit, hdrop]
      simp
    · rw [insert_accumulate, h2]

/-- The row-deletion loop of `delete_range`: `k` in-range deletions at a
fixed position remove the block `[pos, pos + k)`. -/
theorem deleteRowsLoop_spec (k : Nat) :
    ∀ (t : AggAvlTree Nat) (pos : Nat), pos + k ≤ t.len →
    ∃ t2, deleteRowsLoop t pos k = .ok (t2, none)
      ∧ t2.toList = t.toList.take pos ++ t.toList.drop (pos + k)
      ∧ t2.accumulate = t.accumulate := by
  induction k with
  | zero =>
    intro t pos h
    exact ⟨t, rfl, by simp, rfl⟩
  | succ n ih =>
    intro t pos h
    obtain ⟨t2, h1, h2, h3⟩ := t.delete_ok_spec pos (by omega)
    have hlen : t2.len = t.len - 1 := by
      rw [len_eq_length_toList, h2, len_eq_length_toList]
      have hp : pos < t.toList.length := by
        rw [← len_eq_length_toList]; omega
      simp only [List.length_append, List.length_take, List.length_drop]
      omega
    obtain ⟨t3, h4, h5, h6⟩ := ih t2 pos (by omega)
    have hXlen : (t.toList.take pos).length = pos := by
      simp
      rw [← len_eq_length_toList]
      omega
    have e1 : t2.toList.take pos = t.toList.take pos := by
      rw [h2, List.take_append_eq_append_take, List.take_take, Nat.min_self,
        hXlen, Nat.sub_self, List.take_zero, List.append_nil]
    have e2 : t2.toList.drop (pos + n) = t.toList.drop (pos + (n + 1)) := by
      rw [h2, List.drop_append_eq_append_drop,
        List.drop_eq_nil_of_le (by rw [hXlen]; omega), hXlen,
        List.drop_drop]
      simp only [List.nil_append]
      congr 1
      omega
    refine ⟨t3, ?_, ?_, by rw [h6, h3]⟩
    · rw [deleteRowsLoop, h1]
      exact h4
    · rw [h5, e1, e2]

end AggAvlTree

end Ruffd

namespace Ruffd

theorem set_eq_split (l : List α) (i : Nat) (x : α) (h : i < l.length) :
    l.set i x = l.take i ++ x :: l.drop (i + 1) := by
  rw [List.set_eq_take_append_cons_drop, if_pos h]

theorem take_set_of_le (l : List α) (i n : Nat) (x : α) (h : n ≤ i) :
    (l.set i x).take n = l.take n := by
  by_cases hi : i < l.length
  · rw [set_eq_split l i x hi, List.take_append_eq_append_take,
      List.take_take, Nat.min_eq_left (show n ≤ i by omega),
      Nat.sub_eq_zero_of_le (by simp; omega), List.take_zero,
      List.append_nil]
  · rw [List.set_eq_of_length_le (by omega)]

theorem take_succ_get (l : List α) (i : Nat) (v : α)
    (h : l.get? i = some v) :
    l.take (i + 1) = l.take i ++ [v] := by
  have h2 : l[i]? = some v := by
    rw [← List.get?_eq_getElem?]
    exact h
  rw [List.take_succ, h2]
  rfl

theorem get_lt_length (l : List α) (i : Nat) (v : α)
    (h : l.get? i = some v) : i < l.length := by
  by_contra hc
  rw [List.get?_eq_none.mpr (by omega)] at h
  exact Option.noConfusion h

theorem getLastD_cons_cons (first r1 : Nat) (rs : List Nat) :
    (first :: r1 :: rs).getLastD 0 = (r1 :: rs).getLast (by simp) := by
  rw [List.getLastD_eq_getLast?, List.getLast?_cons_cons,
    List.getLast?_eq_getLast (r1 :: rs) (by simp)]
  rfl

namespace DocumentBuffer

/-- `insert_text` on a populated buffer with an out-of-range row: the
lookup fails and `RowOutOfBounds` is returned before any mutation. -/
theorem insert_text_row_oob (b : DocumentBuffer) (text : List Char)
    (row col : Nat) (hne : b.row_tree.isEmpty = false)
    (hrow : b.row_tree.toList.length ≤ row) :
    b.insert_text text (row, col) = .failure b .rowOutOfBounds := by
  have hget : b.row_tree.get row = none := by
    rw [AggAvlTree.get_eq]
    exact List.get?_eq_none.mpr hrow
  simp [insert_text, hne, hget]

/-- `insert_text` on a populated buffer with `col` beyond the stored row
length: `ColOutOfBounds` is returned before any mutation. -/
theorem insert_text_col_oob (b : DocumentBuffer) (text : List Char)
    (row col v : Nat) (hne : b.row_tree.isEmpty = false)
    (hv : b.row_tree.toList.get? row = some v) (hcol : v < col) :
    b.insert_text text (row, col) = .failure b .colOutOfBounds := by
  have hget : b.row_tree.get row = some v := by
    rw [AggAvlTree.get_eq]
    exact hv
  simp [insert_text, hne, hget, hcol]

/-- `insert_text` on an empty buffer rejects any nonzero coordinate
before any mutation. -/
theorem insert_text_empty_err (b : DocumentBuffer) (text : List Char)
    (row col : Nat) (hne : b.row_tree.isEmpty = true)
    (h : row ≠ 0 ∨ col ≠ 0) :
    b.insert_text text (row, col) = .failure b .indexOutOfBounds := by
  simp [insert_text, hne, h]

/-- `insert_text` on an empty buffer at `(0, 0)`: the line lengths of the
chunk are appended to the row tree and the characters become the rope. -/
theorem insert_text_empty_spec (b : DocumentBuffer) (text : List Char)
    (hne : b.row_tree.isEmpty = true) (hlen0 : b.text.len = 0) :
    ∃ b2, b.insert_text text (0, 0) = .success b2
      ∧ b2.row_tree.accumulate = b.row_tree.accumulate
      ∧ b2.row_tree.toList = get_line_lengths text
      ∧ b2.text.toList = text := by
  have htree : b.row_tree.toList = [] := (AggAvlTree.isEmpty_iff _).mp hne
  have htext : b.text.toList = [] := by
    apply List.eq_nil_of_length_eq_zero
    rw [← Rope.len_toList]
    exact hlen0
  obtain ⟨r2, hr1, hr2⟩ := b.text.insert_ok text 0 (by omega)
  obtain ⟨hf1, hf2⟩ := AggAvlTree.foldl_insertBack_toList
    (get_line_lengths text) b.row_tree
  refine ⟨DocumentBuffer.mk
      ((get_line_lengths text).foldl (fun t v => t.insertBack v) b.row_tree)
      r2, ?_, ?_, ?_, ?_⟩
  · simp only [insert_text, hne]
    rw [if_pos trivial, if_neg (by simp), hr1]
  · exact hf2
  · rw [hf1, htree, List.nil_append]
  · rw [hr2, htext]
    simp

end DocumentBuffer

end Ruffd

namespace Ruffd

namespace DocumentBuffer

/-- Final step of `insert_text`: with the combiner intact and the rows
before `row` untouched, the absolute index resolves to the prefix sum
plus the column, and an in-bounds rope insert succeeds and splices. -/
theorem insertTextFinish_spec (buf : DocumentBuffer) (rt : AggAvlTree Nat)
    (text : List Char) (row col : Nat)
    (hacc : rt.accumulate = row_tree_accumulate)
    (htake : rt.toList.take row = buf.row_tree.toList.take row)
    (hidx : (buf.row_tree.toList.take row).sum + col ≤ buf.text.len) :
    ∃ b2, insertTextFinish buf rt text row col = .success b2
      ∧ b2.row_tree = rt
      ∧ b2.text.toList =
          buf.text.toList.take ((buf.row_tree.toList.take row).sum + col)
            ++ text
            ++ buf.text.toList.drop
              ((buf.row_tree.toList.take row).sum + col) := by
  have hidx2 : (rt.getRange .unbounded (.excluded row)).getD 0
      = (buf.row_tree.toList.take row).sum := by
    rw [AggAvlTree.getRange_prefix_sum rt hacc row, htake]
  obtain ⟨r2, hr1, hr2⟩ := buf.text.insert_ok text
    ((rt.getRange .unbounded (.excluded row)).getD 0 + col)
    (by rw [hidx2]; exact hidx)
  refine ⟨DocumentBuffer.mk rt r2, ?_, rfl, ?_⟩
  · simp only [insertTextFinish, hr1]
  · rw [hr2, hidx2]

/-- `insert_text` on a populated buffer with a valid coordinate: the three
line-break cases of the algorithm, stated over the list abstraction. -/
theorem insert_text_success_spec (b : DocumentBuffer) (text : List Char)
    (row col v : Nat)
    (hacc : b.row_tree.accumulate = row_tree_accumulate)
    (hsum : b.row_tree.toList.sum = b.text.len)
    (hne : b.row_tree.isEmpty = false)
    (hv : b.row_tree.toList.get? row = some v)
    (hcol : col ≤ v) :
    ∃ b2, b.insert_text text (row, col) = .success b2
      ∧ b2.row_tree.accumulate = row_tree_accumulate
      ∧ b2.row_tree.toList =
          (if (get_line_lengths text).length = 1
           then b.row_tree.toList.take row
             ++ (col + (get_line_lengths text).headD 0 + (v - col))
               :: b.row_tree.toList.drop (row + 1)
           else b.row_tree.toList.take row
             ++ (col + (get_line_lengths text).headD 0)
               :: ((get_line_lengths text).tail.dropLast
                 ++ ((v - col) + (get_line_lengths text).getLastD 0)
                   :: b.row_tree.toList.drop (row + 1)))
      ∧ b2.text.toList =
          b.text.toList.take ((b.row_tree.toList.take row).sum + col)
            ++ text
            ++ b.text.toList.drop
              ((b.row_tree.toList.take row).sum + col) := by
  have hrowlt : row < b.row_tree.toList.length := get_lt_length _ _ _ hv
  have hget : b.row_tree.get row = some v := by
    rw [AggAvlTree.get_eq]
    exact hv
  have hAlen : (b.row_tree.toList.take row).length = row := by
    simp
    omega
  have hidx : (b.row_tree.toList.take row).sum + col ≤ b.text.len := by
    have h1 := sum_take_succ_get _ _ _ hv
    have h2 := sum_take_le_sum b.row_tree.toList (row + 1)
    omega
  rcases hL : get_line_lengths text with _ | ⟨first, rest⟩
  · exact absurd hL (get_line_lengths_ne_nil text)
  obtain ⟨rt1, hu1, hu1l, hu1a⟩ := AggAvlTree.update_ok_spec b.row_tree row
    (col + first) (by rw [AggAvlTree.len_eq_length_toList]; omega)
  have hrt1 : rt1.toList = b.row_tree.toList.take row
      ++ (col + first) :: b.row_tree.toList.drop (row + 1) := by
    rw [hu1l, set_eq_split _ _ _ hrowlt]
  have hacc1 : rt1.accumulate = row_tree_accumulate := by rw [hu1a, hacc]
  rcases rest with _ | ⟨r1, rs⟩
  · -- no line break in the inserted text
    obtain ⟨rt2, hu2, hu2l, hu2a⟩ := AggAvlTree.update_ok_spec rt1 row
      (col + first + (v - col))
      (by rw [AggAvlTree.len_eq_length_toList, hu1l]; simp; omega)
    have hrt2 : rt2.toList = b.row_tree.toList.take row
        ++ (col + first + (v - col)) :: b.row_tree.toList.drop (row + 1) := by
      rw [hu2l, hu1l, List.set_set, set_eq_split _ _ _ hrowlt]
    have hacc2 : rt2.accumulate = row_tree_accumulate := by rw [hu2a, hacc1]
    have htake2 : rt2.toList.take row = b.row_tree.toList.take row := by
      rw [hu2l, hu1l, take_set_of_le _ _ _ _ (le_refl row),
        take_set_of_le _ _ _ _ (le_refl row)]
    obtain ⟨b2, hfin, hb2rt, hb2text⟩ :=
      insertTextFinish_spec b rt2 text row col hacc2 htake2 hidx
    refine ⟨b2, ?_, ?_, ?_, hb2text⟩
    · simp only [insert_text, hne, Bool.false_eq_true, if_false, hget, hL]
      rw [if_neg (by omega)]
      simp only [hu1, hu2]
      exact hfin
    · rw [hb2rt]
      exact hacc2
    · rw [hb2rt, hrt2]
      simp
  · -- at least one line break in the inserted text
    have hlast : ((r1 :: rs).getLast (by simp))
        = (get_line_lengths text).getLastD 0 := by
      rw [hL, getLastD_cons_cons]
    have hsplitA : rt1.toList
        = (b.row_tree.toList.take row ++ [col + first])
          ++ b.row_tree.toList.drop (row + 1) := by
      rw [hrt1]
      simp
    have ht2a : ((b.row_tree.toList.take row ++ [col + first])
        ++ b.row_tree.toList.drop (row + 1)).take (row + 1)
        = b.row_tree.toList.take row ++ [col + first] := by
      rw [List.take_append_eq_append_take,
        List.take_of_length_le (by simp [hAlen]),
        Nat.sub_eq_zero_of_le (by simp [hAlen]), List.take_zero,
        List.append_nil]
    have ht2b : ((b.row_tree.toList.take row ++ [col + first])
        ++ b.row_tree.toList.drop (row + 1)).drop (row + 1)
        = b.row_tree.toList.drop (row + 1) := by
      rw [List.drop_append_eq_append_drop,
        List.drop_eq_nil_of_le (by simp [hAlen]),
        Nat.sub_eq_zero_of_le (by simp [hAlen]), List.drop_zero,
        List.nil_append]
    have hrt2 : (rt1.insert (row + 1)
        ((v - col) + (r1 :: rs).getLast (by simp))).toList
        = b.row_tree.toList.take row ++ (col + first)
          :: ((v - col) + (r1 :: rs).getLast (by simp))
            :: b.row_tree.toList.drop (row + 1) := by
      rw [AggAvlTree.insert_toList, hsplitA, ht2a, ht2b]
      simp
    obtain ⟨hf1, hf2⟩ := AggAvlTree.foldr_insert_spec (r1 :: rs).dropLast row
      (rt1.insert (row + 1) ((v - col) + (r1 :: rs).getLast (by simp)))
      (b.row_tree.toList.take row) (col + first)
      (((v - col) + (r1 :: rs).getLast (by simp))
        :: b.row_tree.toList.drop (row + 1))
      hAlen hrt2
    have hacc3 : ((r1 :: rs).dropLast.foldr
        (fun cnt tr => tr.insert (row + 1) cnt)
        (rt1.insert (row + 1)
          ((v - col) + (r1 :: rs).getLast (by simp)))).accumulate
        = row_tree_accumulate := by
      rw [hf2, AggAvlTree.insert_accumulate, hacc1]
    have htake3 : ((r1 :: rs).dropLast.foldr
        (fun cnt tr => tr.insert (row + 1) cnt)
        (rt1.insert (row + 1)
          ((v - col) + (r1 :: rs).getLast (by simp)))).toList.take row
        = b.row_tree.toList.take row := by
      rw [hf1]
      have h := take_of_split (b.row_tree.toList.take row) (col + first)
        ((r1 :: rs).dropLast
          ++ ((v - col) + (r1 :: rs).getLast (by simp))
            :: b.row_tree.toList.drop (row + 1))
      rw [hAlen] at h
      exact h
    obtain ⟨b2, hfin, hb2rt, hb2text⟩ :=
      insertTextFinish_spec b _ text row col hacc3 htake3 hidx
    refine ⟨b2, ?_, ?_, ?_, hb2text⟩
    · simp only [insert_text, hne, Bool.false_eq_true, if_false, hget, hL]
      rw [if_neg (by omega)]
      simp only [hu1]
      exact hfin
    · rw [hb2rt]
      exact hacc3
    · rw [hb2rt, hf1]
      rw [if_neg (by simp)]
      simp [getLastD_cons_cons]
      rw [List.getLast?_eq_getLast (r1 :: rs) (by simp)]
      rfl

end DocumentBuffer

end Ruffd

namespace Ruffd

namespace DocumentBuffer

theorem delete_range_empty_err (b : DocumentBuffer)
    (sr sc er ec : Nat) (hne : b.row_tree.isEmpty = true)
    (h : sr + sc + er + ec ≠ 0) :
    b.delete_range (sr, sc) (er, ec) = .failure b .indexOutOfBounds := by
  simp [delete_range, hne, h]

theorem delete_range_empty_ok (b : DocumentBuffer)
    (hne : b.row_tree.isEmpty = true) :
    b.delete_range (0, 0) (0, 0) = .success b := by
  simp [delete_range, hne]

theorem delete_range_start_row_oob (b : DocumentBuffer)
    (sr sc er ec : Nat) (hne : b.row_tree.isEmpty = false)
    (hrow : b.row_tree.toList.length ≤ sr) :
    b.delete_range (sr, sc) (er, ec) = .failure b .rowOutOfBounds := by
  have hget : b.row_tree.get sr = none := by
    rw [AggAvlTree.get_eq]
    exact List.get?_eq_none.mpr hrow
  simp [delete_range, hne, hget]

theorem delete_range_start_col_oob (b : DocumentBuffer)
    (sr sc er ec sv : Nat) (hne : b.row_tree.isEmpty = false)
    (hsv : b.row_tree.toList.get? sr = some sv) (hcol : sv ≤ sc) :
    b.delete_range (sr, sc) (er, ec) = .failure b .colOutOfBounds := by
  have hget : b.row_tree.get sr = some sv := by
    rw [AggAvlTree.get_eq]
    exact hsv
  simp [delete_range, hne, hget, hcol]

theorem delete_range_end_row_oob (b : DocumentBuffer)
    (sr sc er ec sv : Nat) (hne : b.row_tree.isEmpty = false)
    (hsv : b.row_tree.toList.get? sr = some sv) (hscol : sc < sv)
    (hrow : b.row_tree.toList.length ≤ er) :
    b.delete_range (sr, sc) (er, ec) = .failure b .rowOutOfBounds := by
  have hget : b.row_tree.get sr = some sv := by
    rw [AggAvlTree.get_eq]
    exact hsv
  have hget2 : b.row_tree.get er = none := by
    rw [AggAvlTree.get_eq]
    exact List.get?_eq_none.mpr hrow
  simp [delete_range, hne, hget, hget2, Nat.not_le.mpr hscol]

theorem delete_range_end_col_oob (b : DocumentBuffer)
    (sr sc er ec sv ev : Nat) (hne : b.row_tree.isEmpty = false)
    (hsv : b.row_tree.toList.get? sr = some sv) (hscol : sc < sv)
    (hev : b.row_tree.toList.get? er = some ev) (hecol : ev ≤ ec) :
    b.delete_range (sr, sc) (er, ec) = .failure b .colOutOfBounds := by
  have hget : b.row_tree.get sr = some sv := by
    rw [AggAvlTree.get_eq]
    exact hsv
  have hget2 : b.row_tree.get er = some ev := by
    rw [AggAvlTree.get_eq]
    exact hev
  simp [delete_range, hne, hget, hget2, Nat.not_le.mpr hscol, hecol]

/-- `delete_range` on a populated buffer with valid, ordered coordinates:
the rope loses exactly `[start_idx, end_idx)` and the row tree collapses
rows `start_row ..= end_row` into `start_col + (end_row_size -
end_col)`. -/
theorem delete_range_success_spec (b : DocumentBuffer)
    (sr sc er ec sv ev : Nat)
    (hacc : b.row_tree.accumulate = row_tree_accumulate)
    (hsum : b.row_tree.toList.sum = b.text.len)
    (hne : b.row_tree.isEmpty = false)
    (hsv : b.row_tree.toList.get? sr = some sv) (hscol : sc < sv)
    (hev : b.row_tree.toList.get? er = some ev) (hecol : ec < ev)
    (hlex : sr < er ∨ (sr = er ∧ sc ≤ ec)) :
    ∃ b2, b.delete_range (sr, sc) (er, ec) = .success b2
      ∧ b2.row_tree.accumulate = row_tree_accumulate
      ∧ b2.row_tree.toList = b.row_tree.toList.take sr
          ++ (sc + (ev - ec)) :: b.row_tree.toList.drop (er + 1)
      ∧ b2.text.toList =
          b.text.toList.take ((b.row_tree.toList.take sr).sum + sc)
            ++ b.text.toList.drop ((b.row_tree.toList.take er).sum + ec) := by
  have hsrlt : sr < b.row_tree.toList.length := get_lt_length _ _ _ hsv
  have herlt : er < b.row_tree.toList.length := get_lt_length _ _ _ hev
  have hsrer : sr ≤ er := by omega
  have hget : b.row_tree.get sr = some sv := by
    rw [AggAvlTree.get_eq]
    exact hsv
  have hget2 : b.row_tree.get er = some ev := by
    rw [AggAvlTree.get_eq]
    exact hev
  have hpre : (b.row_tree.getRange .unbounded (.excluded sr)).getD 0
      = (b.row_tree.toList.take sr).sum :=
    AggAvlTree.getRange_prefix_sum _ hacc sr
  have hpre2 : (b.row_tree.getRange .unbounded (.excluded er)).getD 0
      = (b.row_tree.toList.take er).sum :=
    AggAvlTree.getRange_prefix_sum _ hacc er
  have hsum_sr := sum_take_succ_get _ _ _ hsv
  have hsum_er := sum_take_succ_get _ _ _ hev
  have hmono := sum_take_mono b.row_tree.toList (show sr + 1 ≤ er + 1 by omega)
  have hle := sum_take_le_sum b.row_tree.toList (er + 1)
  have hidx_le : (b.row_tree.toList.take sr).sum + sc
      ≤ (b.row_tree.toList.take er).sum + ec := by
    rcases hlex with h | ⟨h1, h2⟩
    · have := sum_take_mono b.row_tree.toList (show sr + 1 ≤ er by omega)
      omega
    · subst h1
      omega
  have hend_le : (b.row_tree.toList.take er).sum + ec ≤ b.text.len := by
    omega
  obtain ⟨r2, hr1, hr2⟩ := b.text.delete_ok
    ((b.row_tree.toList.take sr).sum + sc)
    ((b.row_tree.toList.take er).sum + ec) hidx_le hend_le
  obtain ⟨rt1, hl1, hl2, hl3⟩ := AggAvlTree.deleteRowsLoop_spec (er - sr)
    b.row_tree (sr + 1)
    (by rw [AggAvlTree.len_eq_length_toList]; omega)
  have hrt1 : rt1.toList = b.row_tree.toList.take (sr + 1)
      ++ b.row_tree.toList.drop (er + 1) := by
    rw [hl2]
    congr 2
    omega
  have hrt1len : sr < rt1.toList.length := by
    rw [hrt1]
    simp
    omega
  obtain ⟨rt2, hu1, hu2, hu3⟩ := AggAvlTree.update_ok_spec rt1 sr
    (sc + (ev - ec)) (by rw [AggAvlTree.len_eq_length_toList]; omega)
  have hsplit : rt1.toList = b.row_tree.toList.take sr
      ++ sv :: b.row_tree.toList.drop (er + 1) := by
    rw [hrt1, take_succ_get _ _ _ hsv]
    simp
  have hAlen : (b.row_tree.toList.take sr).length = sr := by
    simp
    omega
  have hrt2 : rt2.toList = b.row_tree.toList.take sr
      ++ (sc + (ev - ec)) :: b.row_tree.toList.drop (er + 1) := by
    rw [hu2, hsplit]
    have h := append_set_right (b.row_tree.toList.take sr)
      (sv :: b.row_tree.toList.drop (er + 1)) (sc + (ev - ec)) sr
      (by omega)
    rw [hAlen] at h
    rw [h, Nat.sub_self]
    rfl
  refine ⟨DocumentBuffer.mk rt2 r2, ?_, by rw [hu3, hl3, hacc], hrt2, hr2⟩
  simp only [delete_range, hne, Bool.false_eq_true, if_false, hget, hget2,
    hpre, hpre2]
  rw [if_neg (by omega), if_neg (by omega), hr1]
  simp only [hl1, hu1]

end DocumentBuffer

end Ruffd

namespace Ruffd

theorem sum_take_drop (l : List Nat) (n : Nat) :
    (l.take n).sum + (l.drop n).sum = l.sum := by
  conv_rhs => rw [← List.take_append_drop n l]
  rw [List.sum_append]

theorem sum_decomp_two (L : List Nat) (h : 2 ≤ L.length) :
    L.sum = L.headD 0 + L.tail.dropLast.sum + L.getLastD 0 := by
  rcases L with _ | ⟨a, _ | ⟨r1, rs⟩⟩
  · simp at h
  · simp at h
  · have hsp : (r1 :: rs).dropLast ++ [(r1 :: rs).getLast (by simp)]
        = r1 :: rs := List.dropLast_append_getLast (by simp)
    rw [show ((a :: r1 :: rs : List Nat)).sum = a + (r1 :: rs).sum by simp,
      show ((a :: r1 :: rs : List Nat)).headD 0 = a from rfl,
      show ((a :: r1 :: rs : List Nat)).tail = r1 :: rs from rfl,
      getLastD_cons_cons]
    conv_lhs => rw [← hsp]
    rw [List.sum_append]
    simp
    omega

namespace DocumentBuffer

/-- `insert_text` preserves the representation invariant on success. -/
theorem insert_text_preserves_inv (b : DocumentBuffer) (text : List Char)
    (rc : Nat × Nat) (b2 : DocumentBuffer) (hinv : docInv b)
    (h : b.insert_text text rc = .success b2) : docInv b2 := by
  obtain ⟨hacc, hsum⟩ := hinv
  obtain ⟨row, col⟩ := rc
  have hlsum := get_line_lengths_sum text
  by_cases hne : b.row_tree.isEmpty = true
  · by_cases hz : row = 0 ∧ col = 0
    · obtain ⟨hz1, hz2⟩ := hz
      subst hz1
      subst hz2
      have ht0 : b.row_tree.toList = [] := (AggAvlTree.isEmpty_iff _).mp hne
      have hlen0 : b.text.len = 0 := by
        rw [ht0] at hsum
        simpa using hsum.symm
      obtain ⟨b2x, hs, ha, hrt, htx⟩ := insert_text_empty_spec b text hne hlen0
      rw [hs] at h
      injection h with h
      subst h
      refine ⟨by rw [ha, hacc], ?_⟩
      rw [hrt, Rope.len_toList, htx, hlsum]
    · have he := insert_text_empty_err b text row col hne (by omega)
      rw [he] at h
      exact DocResult.noConfusion h
  · have hne2 : b.row_tree.isEmpty = false := by simpa using hne
    cases hv : b.row_tree.toList.get? row with
    | none =>
      have he := insert_text_row_oob b text row col hne2
        (List.get?_eq_none.mp hv)
      rw [he] at h
      exact DocResult.noConfusion h
    | some v =>
      by_cases hcol : col ≤ v
      · obtain ⟨b2x, hs, ha, hrt, htx⟩ := insert_text_success_spec b text
          row col v hacc hsum hne2 hv hcol
        rw [hs] at h
        injection h with h
        subst h
        have hrowlt : row < b.row_tree.toList.length := get_lt_length _ _ _ hv
        have hsplitO := list_split_at_get _ _ _ hv
        have holdsum : (b.row_tree.toList.take row).sum + v
            + (b.row_tree.toList.drop (row + 1)).sum
            = b.row_tree.toList.sum := by
          conv_rhs => rw [hsplitO]
          rw [List.sum_append]
          simp
          omega
        have htxlen : b2x.text.toList.length
            = b.text.toList.length + text.length := by
          rw [htx]
          simp
          omega
        refine ⟨ha, ?_⟩
        rw [Rope.len_toList, htxlen, ← Rope.len_toList,
          ← hsum, hrt]
        have hone : ∀ l : List Nat, l ≠ [] → l.length = 1
            → l = [l.headD 0] := by
          intro l hn hl
          rcases l with _ | ⟨a, _ | ⟨x, rest⟩⟩
          · exact absurd rfl hn
          · rfl
          · simp at hl
        by_cases h1 : (get_line_lengths text).length = 1
        · rw [if_pos h1]
          have hL1 := hone _ (get_line_lengths_ne_nil text) h1
          have hsum1 : (get_line_lengths text).headD 0 = text.length := by
            rw [hL1] at hlsum
            simpa using hlsum
          rw [List.sum_append]
          simp only [List.sum_cons]
          omega
        · rw [if_neg h1]
          have h0 : (get_line_lengths text).length ≠ 0 := by
            rw [Ne, List.length_eq_zero]
            exact get_line_lengths_ne_nil text
          have hdec := sum_decomp_two (get_line_lengths text) (by omega)
          rw [List.sum_append]
          simp only [List.sum_cons, List.sum_append]
          omega
      · have he := insert_text_col_oob b text row col v hne2 hv (by omega)
        rw [he] at h
        exact DocResult.noConfusion h

/-- `delete_range` with lexicographically ordered endpoints preserves the
representation invariant on success. -/
theorem delete_range_preserves_inv (b : DocumentBuffer)
    (s e : Nat × Nat) (b2 : DocumentBuffer) (hinv : docInv b)
    (hlex : s.1 < e.1 ∨ (s.1 = e.1 ∧ s.2 ≤ e.2))
    (h : b.delete_range s e = .success b2) : docInv b2 := by
  obtain ⟨hacc, hsum⟩ := hinv
  obtain ⟨sr, sc⟩ := s
  obtain ⟨er, ec⟩ := e
  by_cases hne : b.row_tree.isEmpty = true
  · by_cases hz : sr + sc + er + ec = 0
    · have hz1 : sr = 0 ∧ sc = 0 ∧ er = 0 ∧ ec = 0 := by omega
      obtain ⟨hz1, hz2, hz3, hz4⟩ := hz1
      subst hz1; subst hz2; subst hz3; subst hz4
      rw [delete_range_empty_ok b hne] at h
      injection h with h
      subst h
      exact ⟨hacc, hsum⟩
    · rw [delete_range_empty_err b sr sc er ec hne hz] at h
      exact DocResult.noConfusion h
  · have hne2 : b.row_tree.isEmpty = false := by simpa using hne
    cases hsv : b.row_tree.toList.get? sr with
    | none =>
      rw [delete_range_start_row_oob b sr sc er ec hne2
        (List.get?_eq_none.mp hsv)] at h
      exact DocResult.noConfusion h
    | some sv =>
      by_cases hscol : sc < sv
      · cases hev : b.row_tree.toList.get? er with
        | none =>
          rw [delete_range_end_row_oob b sr sc er ec sv hne2 hsv hscol
            (List.get?_eq_none.mp hev)] at h
          exact DocResult.noConfusion h
        | some ev =>
          by_cases hecol : ec < ev
          · obtain ⟨b2x, hs, ha, hrt, htx⟩ := delete_range_success_spec b
              sr sc er ec sv ev hacc hsum hne2 hsv hscol hev hecol
              (by simpa using hlex)
            rw [hs] at h
            injection h with h
            subst h
            have hsrlt : sr < b.row_tree.toList.length :=
              get_lt_length _ _ _ hsv
            have herlt : er < b.row_tree.toList.length :=
              get_lt_length _ _ _ hev
            have hsum_er := sum_take_succ_get _ _ _ hev
            have hsd := sum_take_drop b.row_tree.toList (er + 1)
            have hidx_le : (b.row_tree.toList.take sr).sum + sc
                ≤ (b.row_tree.toList.take er).sum + ec := by
              rcases hlex with h1 | ⟨h1, h2⟩
              · simp only at h1
                have hm := sum_take_mono b.row_tree.toList
                  (show sr + 1 ≤ er by omega)
                have hs2 := sum_take_succ_get _ _ _ hsv
                omega
              · simp only at h1 h2
                subst h1
                omega
            have hend_le : (b.row_tree.toList.take er).sum + ec
                ≤ b.text.len := by
              have := sum_take_le_sum b.row_tree.toList (er + 1)
              omega
            refine ⟨ha, ?_⟩
            rw [hrt, Rope.len_toList, htx]
            rw [List.sum_append]
            simp only [List.length_append, List.length_take,
              List.length_drop, List.sum_cons]
            rw [← Rope.len_toList, ← hsum]
            have hlen_eq : b.row_tree.toList.sum = b.text.len := hsum
            omega
          · rw [delete_range_end_col_oob b sr sc er ec sv ev hne2 hsv hscol
              hev (by omega)] at h
            exact DocResult.noConfusion h
      · rw [delete_range_start_col_oob b sr sc er ec sv hne2 hsv
          (by omega)] at h
        exact DocResult.noConfusion h

end DocumentBuffer

end Ruffd

namespace Ruffd

/-! ## Operation sequences

Sequences of calls against a rope (`Rope::insert` / `Rope::delete`) and
against a document buffer (`insert_text` / `delete_range`), with their
reference semantics on plain lists. -/

/-- One `Rope` call: an insertion at an index, or a deletion of the
concrete range `s..e`. -/
inductive RopeOp (T : Type) where
  | ins (val : List T) (idx : Nat)
  | del (s e : Nat)

/-- Reference semantics of one rope call on a plain list: the spliced
list when the coordinates are valid for the current contents (`idx ≤ len`
for an insertion, `s ≤ e ≤ len` for a deletion), `none` otherwise. -/
def RopeOp.refApply (l : List T) : RopeOp T → Option (List T)
  | .ins v i =>
    if i ≤ l.length then some (l.take i ++ v ++ l.drop i) else none
  | .del s e =>
    if s ≤ e ∧ e ≤ l.length then some (l.take s ++ l.drop e) else none

/-- Reference semantics of a sequence of rope calls. -/
def refApplyOps (l : List T) : List (RopeOp T) → Option (List T)
  | [] => some l
  | op :: rest =>
    match op.refApply l with
    | some l2 => refApplyOps l2 rest
    | none => none

/-- One call against the rope itself; `none` when the call reports an
error (or, for `delete`, panics). -/
def Rope.applyOp (r : Rope T) : RopeOp T → Option (Rope T)
  | .ins v i =>
    match r.insert v i with
    | (r2, none) => some r2
    | (_, some _) => none
  | .del s e =>
    match r.delete (.included s) (.excluded e) with
    | .ok r2 => some r2
    | .error _ => none

/-- A sequence of calls against the rope, stopping at the first error. -/
def Rope.applyOps (r : Rope T) : List (RopeOp T) → Option (Rope T)
  | [] => some r
  | op :: rest =>
    match r.applyOp op with
    | some r2 => r2.applyOps rest
    | none => none

/-- Lexicographic order on `(row, col)` coordinate pairs. -/
def lexLe (s e : Nat × Nat) : Prop :=
  s.1 < e.1 ∨ (s.1 = e.1 ∧ s.2 ≤ e.2)

instance (s e : Nat × Nat) : Decidable (lexLe s e) :=
  inferInstanceAs (Decidable (s.1 < e.1 ∨ (s.1 = e.1 ∧ s.2 ≤ e.2)))

/-- One `DocumentBuffer` call. -/
inductive DocOp where
  | insertOp (text : List Char) (rc : Nat × Nat)
  | deleteOp (s e : Nat × Nat)

/-- Issuing one `DocumentBuffer` call. -/
def DocOp.apply (b : DocumentBuffer) : DocOp → DocResult
  | .insertOp text rc => b.insert_text text rc
  | .deleteOp s e => b.delete_range s e

/-- The endpoints of a `deleteOp` are in lexicographic order (an
`insertOp` is unconstrained). -/
def DocOp.ordered : DocOp → Prop
  | .insertOp _ _ => True
  | .deleteOp s e => lexLe s e

/-- A sequence of `DocumentBuffer` calls all of which return `Ok`: the
buffer is threaded through, and the sequence aborts (`none`) as soon as a
call returns an error or panics. -/
def applyOps (b : DocumentBuffer) : List DocOp → Option DocumentBuffer
  | [] => some b
  | op :: rest =>
    match op.apply b with
    | .success b2 => applyOps b2 rest
    | _ => none

end Ruffd

namespace Ruffd

/-- Rope calls with list-valid coordinates succeed and refine the list
semantics. -/
theorem Rope.applyOps_spec (ops : List (RopeOp T)) :
    ∀ (r : Rope T) (l2 : List T), refApplyOps r.toList ops = some l2 →
    ∃ r2, r.applyOps ops = some r2 ∧ r2.toList = l2 := by
  induction ops with
  | nil =>
    intro r l2 h
    rw [refApplyOps] at h
    injection h with h
    exact ⟨r, rfl, h⟩
  | cons op rest ih =>
    intro r l2 h
    rw [refApplyOps] at h
    cases op with
    | ins v i =>
      by_cases hi : i ≤ r.toList.length
      · obtain ⟨rmid, hr1, hr2⟩ := r.insert_ok v i
          (by rw [Rope.len_toList]; exact hi)
        have hra : RopeOp.refApply r.toList (.ins v i)
            = some (r.toList.take i ++ v ++ r.toList.drop i) := by
          rw [RopeOp.refApply, if_pos hi]
        rw [hra] at h
        have h2 : refApplyOps (r.toList.take i ++ v ++ r.toList.drop i) rest
            = some l2 := h
        obtain ⟨r2, h3, h4⟩ := ih rmid l2 (by rw [hr2]; exact h2)
        refine ⟨r2, ?_, h4⟩
        rw [Rope.applyOps]
        have hap : Rope.applyOp r (.ins v i) = some rmid := by
          rw [Rope.applyOp, hr1]
        rw [hap]
        exact h3
      · have hra : RopeOp.refApply r.toList (.ins v i) = none := by
          rw [RopeOp.refApply, if_neg hi]
        rw [hra] at h
        exact Option.noConfusion h
    | del s e =>
      by_cases hv : s ≤ e ∧ e ≤ r.toList.length
      · obtain ⟨rmid, hr1, hr2⟩ := r.delete_ok s e hv.1
          (by rw [Rope.len_toList]; exact hv.2)
        have hra : RopeOp.refApply r.toList (.del s e)
            = some (r.toList.take s ++ r.toList.drop e) := by
          rw [RopeOp.refApply, if_pos hv]
        rw [hra] at h
        have h2 : refApplyOps (r.toList.take s ++ r.toList.drop e) rest
            = some l2 := h
        obtain ⟨r2, h3, h4⟩ := ih rmid l2 (by rw [hr2]; exact h2)
        refine ⟨r2, ?_, h4⟩
        rw [Rope.applyOps]
        have hap : Rope.applyOp r (.del s e) = some rmid := by
          rw [Rope.applyOp, hr1]
        rw [hap]
        exact h3
      · have hra : RopeOp.refApply r.toList (.del s e) = none := by
          rw [RopeOp.refApply, if_neg hv]
        rw [hra] at h
        exact Option.noConfusion h

end Ruffd

namespace Ruffd

namespace DocumentBuffer

/-- Any `Err` return of `insert_text` leaves the buffer untouched: under
the representation invariant every reachable error path returns before
mutating either structure. -/
theorem insert_text_failure_unchanged (b : DocumentBuffer)
    (text : List Char) (rc : Nat × Nat) (b2 : DocumentBuffer)
    (e : DocumentError) (hinv : docInv b)
    (h : b.insert_text text rc = .failure b2 e) : b2 = b := by
  obtain ⟨hacc, hsum⟩ := hinv
  obtain ⟨row, col⟩ := rc
  by_cases hne : b.row_tree.isEmpty = true
  · by_cases hz : row = 0 ∧ col = 0
    · obtain ⟨hz1, hz2⟩ := hz
      subst hz1
      subst hz2
      have ht0 : b.row_tree.toList = [] := (AggAvlTree.isEmpty_iff _).mp hne
      have hlen0 : b.text.len = 0 := by
        rw [ht0] at hsum
        simpa using hsum.symm
      obtain ⟨b2x, hs, _, _, _⟩ := insert_text_empty_spec b text hne hlen0
      rw [hs] at h
      exact DocResult.noConfusion h
    · rw [insert_text_empty_err b text row col hne (by omega)] at h
      injection h with h1 h2
      exact h1.symm
  · have hne2 : b.row_tree.isEmpty = false := by simpa using hne
    cases hv : b.row_tree.toList.get? row with
    | none =>
      rw [insert_text_row_oob b text row col hne2
        (List.get?_eq_none.mp hv)] at h
      injection h with h1 h2
      exact h1.symm
    | some v =>
      by_cases hcol : col ≤ v
      · obtain ⟨b2x, hs, _, _, _⟩ := insert_text_success_spec b text row col v
          hacc hsum hne2 hv hcol
        rw [hs] at h
        exact DocResult.noConfusion h
      · rw [insert_text_col_oob b text row col v hne2 hv (by omega)] at h
        injection h with h1 h2
        exact h1.symm

/-- Any `Err` return of `delete_range` leaves the buffer untouched: every
validation failure returns before mutation, and once both rows are
validated the row-tree error paths are unreachable (the rope-level
`Vec::drain` panic is a panic, not an `Err`). -/
theorem delete_range_failure_unchanged (b : DocumentBuffer)
    (s e : Nat × Nat) (b2 : DocumentBuffer) (err : DocumentError)
    (hacc : b.row_tree.accumulate = row_tree_accumulate)
    (h : b.delete_range s e = .failure b2 err) : b2 = b := by
  obtain ⟨sr, sc⟩ := s
  obtain ⟨er, ec⟩ := e
  by_cases hne : b.row_tree.isEmpty = true
  · by_cases hz : sr + sc + er + ec = 0
    · rw [show sr = 0 by omega, show sc = 0 by omega, show er = 0 by omega,
        show ec = 0 by omega, delete_range_empty_ok b hne] at h
      exact DocResult.noConfusion h
    · rw [delete_range_empty_err b sr sc er ec hne hz] at h
      injection h with h1 h2
      exact h1.symm
  · have hne2 : b.row_tree.isEmpty = false := by simpa using hne
    cases hsv : b.row_tree.toList.get? sr with
    | none =>
      rw [delete_range_start_row_oob b sr sc er ec hne2
        (List.get?_eq_none.mp hsv)] at h
      injection h with h1 h2
      exact h1.symm
    | some sv =>
      by_cases hscol : sc < sv
      · cases hev : b.row_tree.toList.get? er with
        | none =>
          rw [delete_range_end_row_oob b sr sc er ec sv hne2 hsv hscol
            (List.get?_eq_none.mp hev)] at h
          injection h with h1 h2
          exact h1.symm
        | some ev =>
          by_cases hecol : ec < ev
          · have hsrlt : sr < b.row_tree.toList.length :=
              get_lt_length _ _ _ hsv
            have herlt : er < b.row_tree.toList.length :=
              get_lt_length _ _ _ hev
            have hget : b.row_tree.get sr = some sv := by
              rw [AggAvlTree.get_eq]
              exact hsv
            have hget2 : b.row_tree.get er = some ev := by
              rw [AggAvlTree.get_eq]
              exact hev
            have hpre := AggAvlTree.getRange_prefix_sum _ hacc sr
            have hpre2 := AggAvlTree.getRange_prefix_sum _ hacc er
            simp only [delete_range, hne2, Bool.false_eq_true, if_false,
              hget, hget2, hpre, hpre2] at h
            rw [if_neg (by omega), if_neg (by omega)] at h
            cases hd : b.text.delete
              (.included ((b.row_tree.toList.take sr).sum + sc))
              (.excluded ((b.row_tree.toList.take er).sum + ec)) with
            | error e1 =>
              simp only [hd] at h
              exact DocResult.noConfusion h
            | ok t2 =>
              simp only [hd] at h
              obtain ⟨rt1, hl1, hl2, hl3⟩ :=
                AggAvlTree.deleteRowsLoop_spec (er - sr) b.row_tree (sr + 1)
                  (by rw [AggAvlTree.len_eq_length_toList]; omega)
              simp only [hl1] at h
              have hlt : sr < rt1.len := by
                rw [AggAvlTree.len_eq_length_toList, hl2]
                simp only [List.length_append, List.length_take,
                  List.length_drop]
                omega
              obtain ⟨rt2, hu1, hu2, hu3⟩ :=
                AggAvlTree.update_ok_spec rt1 sr (sc + (ev - ec)) hlt
              simp only [hu1] at h
              exact DocResult.noConfusion h
          · rw [delete_range_end_col_oob b sr sc er ec sv ev hne2 hsv hscol
              hev (by omega)] at h
            injection h with h1 h2
            exact h1.symm
      · rw [delete_range_start_col_oob b sr sc er ec sv hne2 hsv
          (by omega)] at h
        injection h with h1 h2
        exact h1.symm

end DocumentBuffer

end Ruffd

namespace Ruffd

/-! ## The claims -/

/-- Document of the C1 counterexample: two lines, 65 characters in all,
so that the rope root is a parent with its split point at index 32. -/
def c1Doc : List Char := List.replicate 32 'a' ++ '\n' :: List.replicate 32 'b'

/-- Buffer of the C6 / C9 witnesses: one line of one character. -/
def bC6 : DocumentBuffer :=
  ⟨AggAvlTree.fromVec [1] row_tree_accumulate,
   ⟨some (RopeNode.leaf ['x'])⟩⟩

/-- Buffer of the C8 witness: two lines over three characters. -/
def bC8 : DocumentBuffer :=
  ⟨AggAvlTree.fromVec [2, 1] row_tree_accumulate,
   ⟨some (RopeNode.leaf ['a', 'b', 'c'])⟩⟩

/-- Tree of the C5 witness. -/
def c5T : AggAvlTree Nat := AggAvlTree.fromVec [1, 2, 3] (fun a b => a + b)

/-- Tree of the C10 witness. -/
def c10T : AggAvlTree Nat := AggAvlTree.fromVec [3, 4] (fun a b => a + b)

/-- Tree of the C7 evaluation: nine inserts against an initially empty
tree (the inserted values play no role). -/
def c7Base : AggAvlTree Nat :=
  [1, 2, 1, 0, 2, 4, 2, 1, 5].foldl (fun t i => t.insert i 0)
    (AggAvlTree.new (fun a b => a + b))

/-- Claim C1 (amended): for a buffer satisfying the representation
invariant, any sequence of `insert_text` / `delete_range` calls that all
return `Ok`, in which every `delete_range` has lexicographically ordered
endpoints, preserves `sum(row tree) = rope length` after each step. -/
theorem C1_invariant_after_ok_sequences (b : DocumentBuffer)
    (ops : List DocOp) (b2 : DocumentBuffer) (hinv : docInv b)
    (hord : ∀ op ∈ ops, DocOp.ordered op)
    (h : applyOps b ops = some b2) :
    b2.row_tree.toList.sum = b2.text.len := by
  induction ops generalizing b with
  | nil =>
    rw [applyOps] at h
    injection h with h
    subst h
    exact hinv.2
  | cons op rest ih =>
    rw [applyOps] at h
    cases hstep : DocOp.apply b op with
    | success bmid =>
      rw [hstep] at h
      have h2 : applyOps bmid rest = some b2 := h
      have hmid : docInv bmid := by
        cases op with
        | insertOp text rc =>
          exact DocumentBuffer.insert_text_preserves_inv b text rc bmid
            hinv hstep
        | deleteOp s e =>
          exact DocumentBuffer.delete_range_preserves_inv b s e bmid hinv
            (hord (.deleteOp s e) (List.mem_cons_self _ _)) hstep
      exact ih bmid hmid (fun op2 hm => hord op2 (List.mem_cons_of_mem _ hm)) h2
    | failure bmid e =>
      rw [hstep] at h
      exact Option.noConfusion h
    | panicked =>
      rw [hstep] at h
      exact Option.noConfusion h

/-- Claim C1, unamended, is false: `from_string` on `c1Doc` satisfies the
invariant, yet the single `delete_range((1,0), (0,0))` — reversed
endpoints, coordinate-validated — returns `Ok` while leaving the sum of
the row tree at 66 and the rope length at 65 (the reversed range is a
no-op in the rope because the root's split point lies inside it). -/
theorem C1_invariant_counterexample :
    (DocumentBuffer.from_string c1Doc).row_tree.toList.sum
        = (DocumentBuffer.from_string c1Doc).text.len
    ∧ ((DocumentBuffer.from_string c1Doc).delete_range (1, 0) (0, 0)).isSuccess
        = true
    ∧ ((DocumentBuffer.from_string c1Doc).delete_range (1, 0) (0, 0)).bufOut.map
        (fun b2 => (b2.row_tree.toList.sum, b2.text.len)) = some (66, 65) := by
  have hnew : RopeNode.new c1Doc
      = RopeNode.parent (.leaf (c1Doc.take 32)) (.leaf (c1Doc.drop 32)) := by
    rw [RopeNode.new.eq_def, dif_pos (by decide)]
    show RopeNode.parent (RopeNode.new (c1Doc.take 32))
        (RopeNode.new (c1Doc.drop 32)) = _
    rw [RopeNode.new.eq_def, dif_neg (by decide)]
    rw [RopeNode.new.eq_def, dif_neg (by decide)]
  have hb : DocumentBuffer.from_string c1Doc
      = ⟨AggAvlTree.fromVec (get_line_lengths c1Doc) row_tree_accumulate,
         ⟨some (RopeNode.parent (.leaf (c1Doc.take 32))
           (.leaf (c1Doc.drop 32)))⟩⟩ := by
    simp only [DocumentBuffer.from_string, Rope.fromDocument, hnew]
  rw [hb]
  decide

/-- Witness of C1: the empty buffer satisfies the invariant and an
all-zero `delete_range` on it returns `Ok` without touching it. -/
theorem C1_invariant_witness :
    docInv DocumentBuffer.new
    ∧ applyOps DocumentBuffer.new [DocOp.deleteOp (0, 0) (0, 0)]
        = some DocumentBuffer.new
    ∧ DocumentBuffer.new.row_tree.toList.sum = DocumentBuffer.new.text.len :=
  ⟨⟨rfl, rfl⟩, rfl,
   C1_invariant_after_ok_sequences DocumentBuffer.new
     [DocOp.deleteOp (0, 0) (0, 0)] DocumentBuffer.new ⟨rfl, rfl⟩
     (by intro op hm; simp at hm; subst hm; exact Or.inr ⟨rfl, Nat.le_refl 0⟩)
     rfl⟩

/-- Claim C2 (amended): `ServerState` has exactly four fields —
`project_root`, `open_buffers`, `capabilities`, `settings` — each behind
its own reader-writer lock; there is no `checks` field. -/
theorem C2_four_locked_fields :
    serverStateFieldNames.length = 4
    ∧ "checks" ∉ serverStateFieldNames
    ∧ ∀ s : ServerState,
        s = ⟨s.project_root, s.open_buffers, s.capabilities, s.settings⟩ :=
  ⟨rfl, by decide, fun s => rfl⟩

/-- Claim C2, unamended, is false: the record does not have five fields
with one named `checks`. -/
theorem C2_checks_field_counterexample :
    ¬ (serverStateFieldNames.length = 5
        ∧ "checks" ∈ serverStateFieldNames) := by
  decide

/-- Claim C3 (amended): `Rope::delete` removes exactly `[s, e)` — without
failing or panicking — only when `s ≤ e ≤ len`; there is no clamping of
out-of-range bounds (see the counterexample). -/
theorem C3_delete_within_bounds (r : Rope Char) (s e : Nat)
    (hs : s ≤ e) (he : e ≤ r.len) :
    ∃ r2, r.delete (.included s) (.excluded e) = .ok r2
      ∧ r2.toList = r.toList.take s ++ r.toList.drop e :=
  Rope.delete_ok r s e hs he

/-- Witness of C3: deleting `[0, 1)` from a two-element rope. -/
theorem C3_delete_within_bounds_witness :
    (0 ≤ 1 ∧ 1 ≤ (Rope.mk (some (RopeNode.leaf ['a', 'b']))).len)
    ∧ ∃ r2, (Rope.mk (some (RopeNode.leaf ['a', 'b']))).delete
          (.included 0) (.excluded 1) = .ok r2
        ∧ r2.toList
            = (Rope.mk (some (RopeNode.leaf ['a', 'b']))).toList.take 0
              ++ (Rope.mk (some (RopeNode.leaf ['a', 'b']))).toList.drop 1 :=
  ⟨⟨by decide, by decide⟩,
   C3_delete_within_bounds (Rope.mk (some (RopeNode.leaf ['a', 'b']))) 0 1
     (by decide) (by decide)⟩

/-- Claim C3 as stated is false: a deletion range whose end exceeds the
rope length is not clamped — the underlying `Vec::drain` panics (modelled
as `.error ()`). -/
theorem C3_delete_oob_counterexample :
    (Rope.fromDocument ['a']).delete (.included 0) (.excluded 2)
      = .error () := by
  have h1 : RopeNode.new ['a'] = RopeNode.leaf ['a'] := by
    rw [RopeNode.new.eq_def, dif_neg (by decide)]
  rw [Rope.fromDocument, h1]
  rfl

/-- Claim C4: a sequence of rope calls with list-valid coordinates
matches the reference list semantics under `iter().collect()`, and an
insertion at `idx > len` returns `IndexOutOfBounds` leaving the rope
unchanged. -/
theorem C4_rope_sequence (T : Type) :
    (∀ (ops : List (RopeOp T)) (r : Rope T) (l2 : List T),
        refApplyOps r.toList ops = some l2 →
        ∃ r2, r.applyOps ops = some r2 ∧ r2.iterCollect = l2)
    ∧ ∀ (r : Rope T) (v : List T) (idx : Nat), r.len < idx →
        r.insert v idx = (r, some .indexOutOfBounds) := by
  constructor
  · intro ops r l2 h
    obtain ⟨r2, h1, h2⟩ := Rope.applyOps_spec ops r l2 h
    exact ⟨r2, h1, by rw [Rope.iterCollect_eq_toList, h2]⟩
  · intro r v idx h
    exact Rope.insert_oob r v idx h

/-- Witness of C4: insert then delete on a concrete two-character rope,
and a rejected out-of-bounds insertion. -/
theorem C4_rope_sequence_witness :
    refApplyOps (Rope.mk (some (RopeNode.leaf ['a', 'b']))).toList
        [RopeOp.ins ['c'] 1, RopeOp.del 0 1] = some ['c', 'b']
    ∧ (∃ r2, (Rope.mk (some (RopeNode.leaf ['a', 'b']))).applyOps
          [RopeOp.ins ['c'] 1, RopeOp.del 0 1] = some r2
        ∧ r2.iterCollect = ['c', 'b'])
    ∧ (Rope.mk (some (RopeNode.leaf ['a', 'b']))).insert ['z'] 3
        = (Rope.mk (some (RopeNode.leaf ['a', 'b'])), some .indexOutOfBounds) :=
  ⟨by decide,
   (C4_rope_sequence Char).1 [RopeOp.ins ['c'] 1, RopeOp.del 0 1]
     (Rope.mk (some (RopeNode.leaf ['a', 'b']))) ['c', 'b'] (by decide),
   (C4_rope_sequence Char).2 (Rope.mk (some (RopeNode.leaf ['a', 'b'])))
     ['z'] 3 (by decide)⟩

/-- Claim C5: with an associative combiner, `get_range` folds the
combiner over exactly the slice of the contents selected by the resolved
bounds (an unbounded end resolving to `len + 1`), and is `none` on an
empty intersection — in particular whenever `start ≥ end`. -/
theorem C5_get_range_fold (t : AggAvlTree T)
    (hf : ∀ a b c, t.accumulate (t.accumulate a b) c
        = t.accumulate a (t.accumulate b c)) :
    (∀ lo hi, t.getRange lo hi
        = aggList t.accumulate
            (slice (resolveStart lo) (resolveEnd (t.len + 1) hi) t.toList))
    ∧ (∀ l r : Nat, r ≤ l → t.getRange (.included l) (.excluded r) = none)
    ∧ ∀ lo, t.getRange lo .unbounded
        = aggList t.accumulate
            (slice (resolveStart lo) (t.len + 1) t.toList) := by
  refine ⟨fun lo hi => AggAvlTree.getRange_eq t hf lo hi,
    fun l r hlr => ?_,
    fun lo => AggAvlTree.getRange_eq t hf lo .unbounded⟩
  rw [AggAvlTree.getRange_eq t hf]
  have hnil : slice (resolveStart (.included l))
      (resolveEnd (t.len + 1) (.excluded r)) t.toList = [] := by
    apply List.drop_eq_nil_of_le
    calc (t.toList.take (resolveEnd (t.len + 1) (.excluded r))).length
        ≤ resolveEnd (t.len + 1) (.excluded r) := by
          rw [List.length_take]
          omega
      _ ≤ resolveStart (.included l) := hlr
  rw [hnil]
  rfl

/-- Witness of C5: a reversed range on a three-element sum tree is
`none`, and a fully unbounded query folds the whole contents. -/
theorem C5_get_range_fold_witness :
    c5T.getRange (.included 2) (.excluded 1) = none
    ∧ c5T.getRange .unbounded .unbounded
        = aggList c5T.accumulate (slice 0 (c5T.len + 1) c5T.toList) :=
  ⟨(C5_get_range_fold c5T (fun a b c => Nat.add_assoc a b c)).2.1 2 1
     (by decide),
   (C5_get_range_fold c5T (fun a b c => Nat.add_assoc a b c)).2.2 .unbounded⟩

/-- Claim C6: on a non-empty buffer, `insert_text` returns
`RowOutOfBounds` when `row` is not a stored line index, `ColOutOfBounds`
exactly when `col` exceeds the stored length of line `row`, and otherwise
succeeds: with `L` the per-line lengths of the chunk, one entry sets
`OST[row] = col + L[0] + suffix`; two or more set `OST[row] = col + L[0]`,
place `suffix + L[last]` after it and the middle entries in order between
them; the characters enter the rope at `prefix_sum(row) + col`. -/
theorem C6_insert_text_spec (b : DocumentBuffer) (text : List Char)
    (row col : Nat) (hinv : docInv b) (hne : b.row_tree.isEmpty = false) :
    (b.row_tree.toList.get? row = none →
      b.insert_text text (row, col) = .failure b .rowOutOfBounds)
    ∧ (∀ v, b.row_tree.toList.get? row = some v → v < col →
        b.insert_text text (row, col) = .failure b .colOutOfBounds)
    ∧ ∀ v, b.row_tree.toList.get? row = some v → col ≤ v →
        ∃ b2, b.insert_text text (row, col) = .success b2
          ∧ b2.row_tree.toList =
              (if (get_line_lengths text).length = 1
               then b.row_tree.toList.take row
                 ++ (col + (get_line_lengths text).headD 0 + (v - col))
                   :: b.row_tree.toList.drop (row + 1)
               else b.row_tree.toList.take row
                 ++ (col + (get_line_lengths text).headD 0)
                   :: ((get_line_lengths text).tail.dropLast
                     ++ ((v - col) + (get_line_lengths text).getLastD 0)
                       :: b.row_tree.toList.drop (row + 1)))
          ∧ b2.text.toList =
              b.text.toList.take ((b.row_tree.toList.take row).sum + col)
                ++ text
                ++ b.text.toList.drop
                  ((b.row_tree.toList.take row).sum + col) := by
  refine ⟨?_, ?_, ?_⟩
  · intro h
    exact DocumentBuffer.insert_text_row_oob b text row col hne
      (List.get?_eq_none.mp h)
  · intro v hv hlt
    exact DocumentBuffer.insert_text_col_oob b text row col v hne hv hlt
  · intro v hv hle
    obtain ⟨b2, h1, h2, h3, h4⟩ := DocumentBuffer.insert_text_success_spec
      b text row col v hinv.1 hinv.2 hne hv hle
    exact ⟨b2, h1, h3, h4⟩

/-- Witness of C6: a one-line chunk into a one-line buffer, at the end of
the line, and a rejected column. -/
theorem C6_insert_text_spec_witness :
    bC6.row_tree.toList.get? 0 = some 1
    ∧ bC6.insert_text ['y'] (0, 5) = .failure bC6 .colOutOfBounds
    ∧ ∃ b2, bC6.insert_text ['y'] (0, 1) = .success b2
        ∧ b2.row_tree.toList =
            (if (get_line_lengths ['y']).length = 1
             then bC6.row_tree.toList.take 0
               ++ (1 + (get_line_lengths ['y']).headD 0 + (1 - 1))
                 :: bC6.row_tree.toList.drop 1
             else bC6.row_tree.toList.take 0
               ++ (1 + (get_line_lengths ['y']).headD 0)
                 :: ((get_line_lengths ['y']).tail.dropLast
                   ++ ((1 - 1) + (get_line_lengths ['y']).getLastD 0)
                     :: bC6.row_tree.toList.drop 1))
        ∧ b2.text.toList =
            bC6.text.toList.take ((bC6.row_tree.toList.take 0).sum + 1)
              ++ ['y']
              ++ bC6.text.toList.drop
                ((bC6.row_tree.toList.take 0).sum + 1) :=
  ⟨rfl,
   (C6_insert_text_spec bC6 ['y'] 0 5 ⟨rfl, rfl⟩ rfl).2.1 1 rfl (by decide),
   (C6_insert_text_spec bC6 ['y'] 0 1 ⟨rfl, rfl⟩ rfl).2.2 1 rfl (by decide)⟩

/-- Claim C7 is violated by the code: nine inserts produce a balanced
tree, and one in-range delete leaves a node whose children's heights
differ by two — `TreeNode::delete` resolves the left-heavy tie
`height(l.left) = height(l.right)` with the LR double rotation, which
does not restore balance there (the mirrored tie correctly uses RR). -/
theorem C7_unbalanced_after_delete :
    c7Base.isBalanced = true
    ∧ (c7Base.delete 7).toOption.map (fun p => p.2) = some none
    ∧ (c7Base.delete 7).toOption.map (fun p => p.1.isBalanced)
        = some false := by
  decide

/-- Claim C8: `delete_range` validates both endpoints against the row
tree — an absent row is `RowOutOfBounds`, and a column at or beyond the
stored row length (equality included) is `ColOutOfBounds` — so a delete
reaching exactly the end of line `er - 1` is encoded `(er, 0)`, whose
success deletes the rope up to exactly `prefix_sum(er)`. -/
theorem C8_delete_range_validation (b : DocumentBuffer)
    (sr sc er ec : Nat) (hne : b.row_tree.isEmpty = false) :
    (b.row_tree.toList.get? sr = none →
      b.delete_range (sr, sc) (er, ec) = .failure b .rowOutOfBounds)
    ∧ (∀ sv, b.row_tree.toList.get? sr = some sv → sv ≤ sc →
        b.delete_range (sr, sc) (er, ec) = .failure b .colOutOfBounds)
    ∧ (∀ sv, b.row_tree.toList.get? sr = some sv → sc < sv →
        b.row_tree.toList.get? er = none →
        b.delete_range (sr, sc) (er, ec) = .failure b .rowOutOfBounds)
    ∧ (∀ sv ev, b.row_tree.toList.get? sr = some sv → sc < sv →
        b.row_tree.toList.get? er = some ev → ev ≤ ec →
        b.delete_range (sr, sc) (er, ec) = .failure b .colOutOfBounds)
    ∧ ∀ sv ev, docInv b →
        b.row_tree.toList.get? sr = some sv → sc < sv →
        b.row_tree.toList.get? er = some ev → 0 < ev → sr < er →
        ∃ b2, b.delete_range (sr, sc) (er, 0) = .success b2
          ∧ b2.text.toList =
              b.text.toList.take ((b.row_tree.toList.take sr).sum + sc)
                ++ b.text.toList.drop ((b.row_tree.toList.take er).sum) := by
  refine ⟨?_, ?_, ?_, ?_, ?_⟩
  · intro h
    exact DocumentBuffer.delete_range_start_row_oob b sr sc er ec hne
      (List.get?_eq_none.mp h)
  · intro sv hsv hle
    exact DocumentBuffer.delete_range_start_col_oob b sr sc er ec sv hne
      hsv hle
  · intro sv hsv hlt hev
    exact DocumentBuffer.delete_range_end_row_oob b sr sc er ec sv hne
      hsv hlt (List.get?_eq_none.mp hev)
  · intro sv ev hsv hlt hev hle
    exact DocumentBuffer.delete_range_end_col_oob b sr sc er ec sv ev hne
      hsv hlt hev hle
  · intro sv ev hinv hsv hlt hev hev0 hsrer
    obtain ⟨b2, h1, h2, h3, h4⟩ := DocumentBuffer.delete_range_success_spec
      b sr sc er 0 sv ev hinv.1 hinv.2 hne hsv hlt hev hev0 (Or.inl hsrer)
    exact ⟨b2, h1, by simpa using h4⟩

/-- Witness of C8: on a two-line buffer, a start column equal to the line
length is rejected, and `(1, 0)` deletes exactly through the end of line
0. -/
theorem C8_delete_range_validation_witness :
    bC8.row_tree.toList.get? 0 = some 2
    ∧ bC8.delete_range (0, 2) (1, 0) = .failure bC8 .colOutOfBounds
    ∧ ∃ b2, bC8.delete_range (0, 0) (1, 0) = .success b2
        ∧ b2.text.toList =
            bC8.text.toList.take ((bC8.row_tree.toList.take 0).sum + 0)
              ++ bC8.text.toList.drop ((bC8.row_tree.toList.take 1).sum) :=
  ⟨rfl,
   (C8_delete_range_validation bC8 0 2 1 0 rfl).2.1 2 rfl (by decide),
   (C8_delete_range_validation bC8 0 0 1 0 rfl).2.2.2.2 2 1 ⟨rfl, rfl⟩ rfl
     (by decide) rfl (by decide) (by decide)⟩

/-- Claim C9: under the representation invariant, `insert_text` leaves
the buffer exactly as it was whenever it returns an error, and so does
`delete_range` when its start coordinate is lexicographically at or
before its end coordinate. -/
theorem C9_atomic_on_error (b : DocumentBuffer) (hinv : docInv b) :
    (∀ (text : List Char) (rc : Nat × Nat) (b2 : DocumentBuffer)
        (e : DocumentError),
        b.insert_text text rc = .failure b2 e → b2 = b)
    ∧ ∀ (s e : Nat × Nat) (b2 : DocumentBuffer) (err : DocumentError),
        lexLe s e → b.delete_range s e = .failure b2 err → b2 = b :=
  ⟨fun text rc b2 e h =>
    DocumentBuffer.insert_text_failure_unchanged b text rc b2 e hinv h,
   fun s e b2 err _ h =>
    DocumentBuffer.delete_range_failure_unchanged b s e b2 err hinv.1 h⟩

/-- Witness of C9: a row-out-of-bounds insertion and a
column-out-of-bounds deletion against a concrete buffer, both returning
it unchanged. -/
theorem C9_atomic_on_error_witness :
    docInv bC6
    ∧ bC6.insert_text ['y'] (5, 0) = .failure bC6 .rowOutOfBounds
    ∧ bC6.delete_range (0, 0) (0, 5) = .failure bC6 .colOutOfBounds
    ∧ bC6 = bC6
    ∧ bC6 = bC6 :=
  ⟨⟨rfl, rfl⟩, rfl, rfl,
   (C9_atomic_on_error bC6 ⟨rfl, rfl⟩).1 ['y'] (5, 0) bC6 .rowOutOfBounds rfl,
   (C9_atomic_on_error bC6 ⟨rfl, rfl⟩).2 (0, 0) (0, 5) bC6 .colOutOfBounds
     (Or.inr ⟨rfl, by omega⟩) rfl⟩

/-- Claim C10: `AggAvlTree::insert` never rejects an index — the element
count always grows by one, any index at or beyond the length appends at
the back, and `insert_back` is exactly `insert` at `len + 1`. -/
theorem C10_insert_total (t : AggAvlTree T) (idx : Nat) (val : T) :
    (t.insert idx val).len = t.len + 1
    ∧ (t.len ≤ idx → (t.insert idx val).toList = t.toList ++ [val])
    ∧ t.insertBack val = t.insert (t.len + 1) val := by
  refine ⟨AggAvlTree.insert_len t idx val, fun h => ?_, rfl⟩
  have h1 : t.toList.length ≤ idx := by
    rw [← AggAvlTree.len_eq_length_toList]
    exact h
  rw [AggAvlTree.insert_toList, List.take_of_length_le h1,
    List.drop_eq_nil_of_le h1]

/-- Witness of C10: inserting at index 5 into a two-element tree appends
at the back. -/
theorem C10_insert_total_witness :
    c10T.len ≤ 5
    ∧ (c10T.insert 5 9).len = c10T.len + 1
    ∧ (c10T.insert 5 9).toList = c10T.toList ++ [9]
    ∧ c10T.insertBack 9 = c10T.insert (c10T.len + 1) 9 :=
  ⟨by decide, (C10_insert_total c10T 5 9).1,
   (C10_insert_total c10T 5 9).2.1 (by decide),
   (C10_insert_total c10T 5 9).2.2⟩

end Ruffd
